import Mathlib

/-!
Verification development for the DIPlib convolution dispatcher and the
array-processing framework around it (`src/linear/convolution.cpp`,
`src/math/arithmetic.cpp`).

Sample values are modelled by exact rationals (`ℚ`): the C++ code computes in
`sfloat`/`dfloat`, and every claim about values is stated "up to floating-point
rounding", which in an exact model is plain equality.  `dip::uint` quantities
are modelled by `ℕ`, with an explicit `% 2 ^ 64` at the one place where the
source can underflow an unsigned subtraction.  Code that the claims depend on
but whose implementation lives outside the shown translation units
(`Framework::Separable`, `Framework::Full`, `Framework::Scan`,
`dip::FourierTransform`, `dip::Uniform`, `dip::SeparateFilter`,
`dip::ExtendImageToSize`, `dip::Image` padding and cropping) is modelled from
the specification; each such definition carries a doc comment starting with
`Modelled from the spec:`.
-/

namespace DipSpec

/-- Error message of `InternOneDimensionalFilter` for an odd-length complex tap list. -/
def errComplexOdd : String := "Complex filter must have an even number of values."

/-- Error message of `InternOneDimensionalFilter` for an unexpected complex filter. -/
def errComplexUnexpected : String := "Found a complex filter where none was expected."

/-- Error message of `InternOneDimensionalFilter` for an unknown symmetry string. -/
def errSymmetryUnknown : String := "Symmetry string not recognized: "

/-- Error message of `InternOneDimensionalFilter` for an out-of-range origin. -/
def errOriginOutside : String := "Origin outside of filter"

/-- The filter symmetry classification, from the anonymous enum at the top of
`src/linear/convolution.cpp`. -/
inductive FilterSymmetry
  | GENERAL
  | EVEN
  | ODD
  | CONJ
  | D_EVEN
  | D_ODD
  | D_CONJ
deriving DecidableEq

/-- The public 1-D filter description `dip::OneDimensionalFilter`: a list of tap
values, an origin (negative means "use the default, central origin"), a symmetry
string, and a flag saying whether `filter` holds interleaved real/imaginary
pairs.  Tap values are exact rationals standing for the C++ `dfloat` entries. -/
structure OneDimensionalFilter where
  filter : List ℚ
  origin : ℤ := -1
  symmetry : String := ""
  isComplex : Bool := false
deriving DecidableEq

instance : Inhabited OneDimensionalFilter := ⟨{ filter := [] }⟩

/-- The internal filter representation `InternOneDimensionalFilter`: the tap
data reversed for correlation-style application, the symmetry-expanded logical
`size`, the number of stored samples `dataSize`, and the (reversed) origin. -/
structure InternOneDimensionalFilter where
  filter : List ℚ
  size : ℕ := 0
  dataSize : ℕ := 0
  origin : ℕ := 0
  isComplex : Bool := false
  symmetry : FilterSymmetry := .GENERAL
deriving DecidableEq

instance : Inhabited InternOneDimensionalFilter := ⟨{ filter := [] }⟩

/-- Symmetry-string parsing of the `InternOneDimensionalFilter` constructor
(`convolution.cpp` lines 81-103): empty or `"general"` keeps a general filter;
`"conj"`/`"d-conj"` degrade to `EVEN`/`D_EVEN` when the filter is not complex;
anything else is rejected. -/
def parseSymmetry (symmetry : String) (isComplex : Bool) : Except String FilterSymmetry :=
  if symmetry = "" ∨ symmetry = "general" then .ok .GENERAL
  else if symmetry = "even" then .ok .EVEN
  else if symmetry = "odd" then .ok .ODD
  else if symmetry = "conj" then .ok (if isComplex then .CONJ else .EVEN)
  else if symmetry = "d-even" then .ok .D_EVEN
  else if symmetry = "d-odd" then .ok .D_ODD
  else if symmetry = "d-conj" then .ok (if isComplex then .D_CONJ else .D_EVEN)
  else .error (errSymmetryUnknown ++ symmetry)

/-- Logical size growth of the symmetric storage schemes: `size += size - 1` for
the odd-length tags and `size += size` for the even-length ("d-") tags
(`convolution.cpp` lines 81-103). -/
def expandSize (sym : FilterSymmetry) (size : ℕ) : ℕ :=
  match sym with
  | .GENERAL => size
  | .EVEN | .ODD | .CONJ => size + (size - 1)
  | .D_EVEN | .D_ODD | .D_CONJ => size + size

/-- Origin resolution of the `InternOneDimensionalFilter` constructor
(`convolution.cpp` lines 104-109): a negative requested origin selects the
central index `size / 2`; a non-negative origin must be strictly smaller than
the symmetry-expanded size. -/
def resolveOrigin (size : ℕ) (origin : ℤ) : Except String ℕ :=
  if origin < 0 then .ok (size / 2)
  else if size ≤ origin.toNat then .error errOriginOutside
  else .ok origin.toNat

/-- Reversal of a complex tap buffer: `CopyReverseData` on `dcomplex` elements
reverses the order of the (re, im) pairs, keeping each pair intact. -/
def reversePairs : List ℚ → List ℚ
  | a :: b :: rest => reversePairs rest ++ [a, b]
  | l => l

/-- The `InternOneDimensionalFilter` constructor (`convolution.cpp` lines
67-148): halve the sample count of an interleaved complex tap list, parse the
symmetry tag, expand the logical size, resolve the origin, copy the tap data
reversed (`CopyReverseData`), and finally reverse the origin as well.  The
`isDouble` flag of the C++ struct only selects the floating-point width and has
no counterpart in this exact model. -/
def InternOneDimensionalFilter.make (f : OneDimensionalFilter) (useComplex : Bool) :
    Except String InternOneDimensionalFilter :=
  let dataSize0 := f.filter.length
  if f.isComplex ∧ dataSize0 % 2 = 1 then .error errComplexOdd
  else if f.isComplex ∧ ¬ useComplex then .error errComplexUnexpected
  else
    let dataSize := if f.isComplex then dataSize0 / 2 else dataSize0
    if dataSize = 0 then
      .ok { filter := [], size := 0, dataSize := 0, origin := 0,
            isComplex := useComplex, symmetry := .GENERAL }
    else
      match parseSymmetry f.symmetry useComplex with
      | .error e => .error e
      | .ok sym =>
        let size := expandSize sym dataSize
        match resolveOrigin size f.origin with
        | .error e => .error e
        | .ok origin0 =>
          let revData :=
            if useComplex then
              if f.isComplex then reversePairs f.filter
              else ((f.filter.reverse.map (fun x => [x, 0])).foldr (· ++ ·) [])
            else f.filter.reverse
          .ok { filter := revData, size := size, dataSize := dataSize,
                origin := size - origin0 - 1, isComplex := useComplex, symmetry := sym }

/-- The test `IsMeaninglessFilter` (`convolution.cpp` lines 295-305): a filter
is meaningless when it has no taps, or exactly one tap whose value is `1`
(for a complex filter: real part `1`, imaginary part `0`). -/
def IsMeaninglessFilter (f : InternOneDimensionalFilter) : Bool :=
  f.size == 0 ||
    (f.size == 1 &&
      (if f.isComplex then f.filter.getD 0 0 == 1 && f.filter.getD 1 0 == 0
       else f.filter.getD 0 0 == 1))

/-- One output line of `SeparableConvolutionLineFilter< TPI, TPF >::Filter`
(`convolution.cpp` lines 175-290) for the real instantiation `TPI = TPF = ℚ`:
`line` is the boundary-extended input scan line and the result gives every
output sample.  The stored taps are already reversed and `f.origin` is the
reversed origin, exactly as produced by `InternOneDimensionalFilter.make`.  In
the real instantiation `conjugate` is the identity, so the `CONJ` cases compute
the same sums as the corresponding `EVEN` cases. -/
def separableLine (f : InternOneDimensionalFilter) (line : ℤ → ℚ) : ℤ → ℚ := fun ii =>
  let g : ℕ → ℚ := fun j => f.filter.getD j 0
  let origin : ℤ := (f.origin : ℤ)
  match f.symmetry with
  | .GENERAL =>
      ∑ j ∈ Finset.range f.dataSize, g j * line (ii - origin + j)
  | .EVEN | .CONJ =>
      g 0 * line (ii - origin + ((f.dataSize : ℤ) - 1)) +
        ∑ j ∈ Finset.Ico 1 f.dataSize,
          g j * (line (ii - origin + ((f.dataSize : ℤ) - 1) + j) +
                 line (ii - origin + ((f.dataSize : ℤ) - 1) - j))
  | .ODD =>
      g 0 * line (ii - origin + ((f.dataSize : ℤ) - 1)) +
        ∑ j ∈ Finset.Ico 1 f.dataSize,
          g j * (line (ii - origin + ((f.dataSize : ℤ) - 1) + j) -
                 line (ii - origin + ((f.dataSize : ℤ) - 1) - j))
  | .D_EVEN | .D_CONJ =>
      ∑ j ∈ Finset.range f.dataSize,
        g j * (line (ii - origin + ((f.dataSize : ℤ) - 1) + j) +
               line (ii - origin + ((f.dataSize : ℤ) - 1) - 1 - j))
  | .D_ODD =>
      ∑ j ∈ Finset.range f.dataSize,
        g j * (line (ii - origin + ((f.dataSize : ℤ) - 1) + j) -
               line (ii - origin + ((f.dataSize : ℤ) - 1) - 1 - j))

/-- Indexing a reversed list reads the list back to front. -/
theorem getD_reverse (l : List ℚ) (i : ℕ) (h : i < l.length) :
    l.reverse.getD i 0 = l.getD (l.length - 1 - i) 0 := by
  rw [List.getD_eq_getElem?_getD, List.getD_eq_getElem?_getD, List.getElem?_reverse h]

/-- A successfully resolved origin lies inside the filter. -/
theorem resolveOrigin_ok_lt {n : ℕ} {o : ℤ} {r : ℕ}
    (h : resolveOrigin n o = .ok r) (hn : 0 < n) : r < n := by
  unfold resolveOrigin at h
  split at h
  · cases h
    omega
  · split at h
    · cases h
    · cases h
      omega

/-- Successful construction of a real filter, unfolded: the result stores the
reversed taps, the symmetry-expanded size, and the reversed resolved origin. -/
theorem make_real_ok {f : OneDimensionalFilter} {fd : InternOneDimensionalFilter}
    (hc : f.isComplex = false) (hne : f.filter ≠ [])
    (h : InternOneDimensionalFilter.make f false = .ok fd) :
    ∃ sym origin0, parseSymmetry f.symmetry false = .ok sym ∧
      resolveOrigin (expandSize sym f.filter.length) f.origin = .ok origin0 ∧
      fd = { filter := f.filter.reverse, size := expandSize sym f.filter.length,
             dataSize := f.filter.length,
             origin := expandSize sym f.filter.length - origin0 - 1,
             isComplex := false, symmetry := sym } := by
  unfold InternOneDimensionalFilter.make at h
  simp only [hc, false_and, if_false, Bool.false_eq_true, if_neg, ite_false] at h
  rw [if_neg (by simpa using hne)] at h
  cases hp : parseSymmetry f.symmetry false with
  | error e => rw [hp] at h; cases h
  | ok sym =>
    rw [hp] at h
    dsimp only at h
    cases hr : resolveOrigin (expandSize sym f.filter.length) f.origin with
    | error e => rw [hr] at h; cases h
    | ok origin0 =>
      rw [hr] at h
      dsimp only at h
      cases h
      exact ⟨sym, origin0, rfl, hr, rfl⟩

/-- Evaluation of the general-symmetry line filter in terms of the original
(unreversed) tap list `T` and the logical origin `o`: it computes the
correlation-as-convolution sum `∑ k, T k * line (ii + o - k)`. -/
theorem separableLine_general_taps (T : List ℚ) (o : ℕ) (ho : o < T.length)
    (line : ℤ → ℚ) (ii : ℤ) :
    separableLine { filter := T.reverse, size := T.length, dataSize := T.length,
                    origin := T.length - o - 1, isComplex := false,
                    symmetry := FilterSymmetry.GENERAL } line ii
      = ∑ k ∈ Finset.range T.length, T.getD k 0 * line (ii + (o : ℤ) - (k : ℤ)) := by
  rw [← Finset.sum_range_reflect]
  unfold separableLine
  dsimp only
  apply Finset.sum_congr rfl
  intro j hj
  rw [Finset.mem_range] at hj
  rw [getD_reverse T j hj]
  congr 2
  omega

/-- Folding a symmetric odd-length tap list around its center: the general
multiply-accumulate sum equals the center term plus the two-sided folded sum
computed by the EVEN branch of the line filter. -/
theorem sum_even_fold (m : ℕ) (hm : 0 < m) (T : List ℚ)
    (hsym : ∀ j, j < m → T.getD (m - 1 + j) 0 = T.getD (m - 1 - j) 0)
    (line : ℤ → ℚ) (c : ℤ) :
    ∑ k ∈ Finset.range (2 * m - 1), T.getD k 0 * line (c + (m : ℤ) - 1 - (k : ℤ))
      = T.getD (m - 1) 0 * line c
        + ∑ j ∈ Finset.Ico 1 m, T.getD (m - 1 - j) 0 * (line (c + (j : ℤ)) + line (c - (j : ℤ))) := by
  obtain ⟨mm, rfl⟩ : ∃ mm, m = mm + 1 := ⟨m - 1, by omega⟩
  rw [show 2 * (mm + 1) - 1 = (mm + 1) + mm from by omega, Finset.sum_range_add,
      Finset.sum_range_succ, Finset.sum_Ico_eq_sum_range]
  simp only [Nat.add_sub_cancel, mul_add, Finset.sum_add_distrib]
  have hP1 : ∑ x ∈ Finset.range mm, T.getD x 0 * line (c + ((mm + 1 : ℕ) : ℤ) - 1 - (x : ℤ))
      = ∑ k ∈ Finset.range mm, T.getD (mm - (1 + k)) 0 * line (c + ((1 + k : ℕ) : ℤ)) := by
    rw [← Finset.sum_range_reflect
          (fun k => T.getD (mm - (1 + k)) 0 * line (c + ((1 + k : ℕ) : ℤ))) mm]
    refine Finset.sum_congr rfl (fun x hx => ?_)
    rw [Finset.mem_range] at hx
    rw [show mm - (1 + (mm - 1 - x)) = x from by omega]
    congr 2
    omega
  have hP3 : ∑ x ∈ Finset.range mm,
        T.getD (mm + 1 + x) 0 * line (c + ((mm + 1 : ℕ) : ℤ) - 1 - ((mm + 1 + x : ℕ) : ℤ))
      = ∑ k ∈ Finset.range mm, T.getD (mm - (1 + k)) 0 * line (c - ((1 + k : ℕ) : ℤ)) := by
    refine Finset.sum_congr rfl (fun x hx => ?_)
    rw [Finset.mem_range] at hx
    have e1 := hsym (x + 1) (by omega)
    rw [show mm + 1 - 1 + (x + 1) = mm + 1 + x from by omega,
        show mm + 1 - 1 - (x + 1) = mm - (1 + x) from by omega] at e1
    rw [e1, show mm - (1 + x) = mm - (1 + x) from rfl]
    congr 2
    omega
  have hP2 : T.getD mm 0 * line (c + ((mm + 1 : ℕ) : ℤ) - 1 - ((mm : ℕ) : ℤ))
      = T.getD mm 0 * line c := by
    congr 2
    push_cast
    ring
  rw [hP1, hP3, hP2]
  ring

/-- Folding an antisymmetric odd-length tap list around its center, matching
the ODD branch of the line filter. -/
theorem sum_odd_fold (m : ℕ) (hm : 0 < m) (T : List ℚ)
    (hsym : ∀ j, 1 ≤ j → j < m → T.getD (m - 1 + j) 0 = - T.getD (m - 1 - j) 0)
    (line : ℤ → ℚ) (c : ℤ) :
    ∑ k ∈ Finset.range (2 * m - 1), T.getD k 0 * line (c + (m : ℤ) - 1 - (k : ℤ))
      = T.getD (m - 1) 0 * line c
        + ∑ j ∈ Finset.Ico 1 m, T.getD (m - 1 - j) 0 * (line (c + (j : ℤ)) - line (c - (j : ℤ))) := by
  obtain ⟨mm, rfl⟩ : ∃ mm, m = mm + 1 := ⟨m - 1, by omega⟩
  rw [show 2 * (mm + 1) - 1 = (mm + 1) + mm from by omega, Finset.sum_range_add,
      Finset.sum_range_succ, Finset.sum_Ico_eq_sum_range]
  simp only [Nat.add_sub_cancel, mul_sub, Finset.sum_sub_distrib]
  have hP1 : ∑ x ∈ Finset.range mm, T.getD x 0 * line (c + ((mm + 1 : ℕ) : ℤ) - 1 - (x : ℤ))
      = ∑ k ∈ Finset.range mm, T.getD (mm - (1 + k)) 0 * line (c + ((1 + k : ℕ) : ℤ)) := by
    rw [← Finset.sum_range_reflect
          (fun k => T.getD (mm - (1 + k)) 0 * line (c + ((1 + k : ℕ) : ℤ))) mm]
    refine Finset.sum_congr rfl (fun x hx => ?_)
    rw [Finset.mem_range] at hx
    rw [show mm - (1 + (mm - 1 - x)) = x from by omega]
    congr 2
    omega
  have hP3 : ∑ x ∈ Finset.range mm,
        T.getD (mm + 1 + x) 0 * line (c + ((mm + 1 : ℕ) : ℤ) - 1 - ((mm + 1 + x : ℕ) : ℤ))
      = ∑ k ∈ Finset.range mm, -(T.getD (mm - (1 + k)) 0 * line (c - ((1 + k : ℕ) : ℤ))) := by
    refine Finset.sum_congr rfl (fun x hx => ?_)
    rw [Finset.mem_range] at hx
    have e1 := hsym (x + 1) (by omega) (by omega)
    rw [show mm + 1 - 1 + (x + 1) = mm + 1 + x from by omega,
        show mm + 1 - 1 - (x + 1) = mm - (1 + x) from by omega] at e1
    rw [e1]
    rw [show (c + ((mm + 1 : ℕ) : ℤ) - 1 - ((mm + 1 + x : ℕ) : ℤ)) = c - ((1 + x : ℕ) : ℤ) from by
      push_cast; ring]
    ring
  have hP2 : T.getD mm 0 * line (c + ((mm + 1 : ℕ) : ℤ) - 1 - ((mm : ℕ) : ℤ))
      = T.getD mm 0 * line c := by
    congr 2
    push_cast
    ring
  rw [hP1, hP3, hP2, Finset.sum_neg_distrib]
  ring

/-- Folding a mirrored even-length tap list, matching the D_EVEN branch of the
line filter: the right half of the taps repeats the left half in reverse. -/
theorem sum_deven_fold (m : ℕ) (T : List ℚ)
    (hsym : ∀ j, j < m → T.getD (m + j) 0 = T.getD (m - 1 - j) 0)
    (line : ℤ → ℚ) (c : ℤ) :
    ∑ k ∈ Finset.range (2 * m), T.getD k 0 * line (c + (m : ℤ) - (k : ℤ))
      = ∑ j ∈ Finset.range m,
          T.getD (m - 1 - j) 0 * (line (c + 1 + (j : ℤ)) + line (c - (j : ℤ))) := by
  rw [two_mul, Finset.sum_range_add]
  simp only [mul_add, Finset.sum_add_distrib]
  have hP1 : ∑ x ∈ Finset.range m, T.getD x 0 * line (c + ((m : ℕ) : ℤ) - (x : ℤ))
      = ∑ j ∈ Finset.range m, T.getD (m - 1 - j) 0 * line (c + 1 + (j : ℤ)) := by
    rw [← Finset.sum_range_reflect
          (fun j => T.getD (m - 1 - j) 0 * line (c + 1 + (j : ℤ))) m]
    refine Finset.sum_congr rfl (fun x hx => ?_)
    rw [Finset.mem_range] at hx
    rw [show m - 1 - (m - 1 - x) = x from by omega]
    congr 2
    omega
  have hP2 : ∑ x ∈ Finset.range m,
        T.getD (m + x) 0 * line (c + ((m : ℕ) : ℤ) - ((m + x : ℕ) : ℤ))
      = ∑ j ∈ Finset.range m, T.getD (m - 1 - j) 0 * line (c - (j : ℤ)) := by
    refine Finset.sum_congr rfl (fun x hx => ?_)
    rw [Finset.mem_range] at hx
    rw [hsym x hx]
    congr 2
    omega
  rw [hP1, hP2]

/-- Folding a negated-mirrored even-length tap list, matching the D_ODD branch
of the line filter. -/
theorem sum_dodd_fold (m : ℕ) (T : List ℚ)
    (hsym : ∀ j, j < m → T.getD (m + j) 0 = - T.getD (m - 1 - j) 0)
    (line : ℤ → ℚ) (c : ℤ) :
    ∑ k ∈ Finset.range (2 * m), T.getD k 0 * line (c + (m : ℤ) - (k : ℤ))
      = ∑ j ∈ Finset.range m,
          T.getD (m - 1 - j) 0 * (line (c + 1 + (j : ℤ)) - line (c - (j : ℤ))) := by
  rw [two_mul, Finset.sum_range_add]
  simp only [mul_sub, Finset.sum_sub_distrib]
  have hP1 : ∑ x ∈ Finset.range m, T.getD x 0 * line (c + ((m : ℕ) : ℤ) - (x : ℤ))
      = ∑ j ∈ Finset.range m, T.getD (m - 1 - j) 0 * line (c + 1 + (j : ℤ)) := by
    rw [← Finset.sum_range_reflect
          (fun j => T.getD (m - 1 - j) 0 * line (c + 1 + (j : ℤ))) m]
    refine Finset.sum_congr rfl (fun x hx => ?_)
    rw [Finset.mem_range] at hx
    rw [show m - 1 - (m - 1 - x) = x from by omega]
    congr 2
    omega
  have hP2 : ∑ x ∈ Finset.range m,
        T.getD (m + x) 0 * line (c + ((m : ℕ) : ℤ) - ((m + x : ℕ) : ℤ))
      = ∑ j ∈ Finset.range m, -(T.getD (m - 1 - j) 0 * line (c - (j : ℤ))) := by
    refine Finset.sum_congr rfl (fun x hx => ?_)
    rw [Finset.mem_range] at hx
    rw [hsym x hx]
    rw [show (c + ((m : ℕ) : ℤ) - ((m + x : ℕ) : ℤ)) = c - ((x : ℕ) : ℤ) from by push_cast; ring]
    ring
  rw [hP1, hP2, Finset.sum_neg_distrib]
  ring

/-- Indexing a prefix of a list agrees with indexing the list. -/
theorem getD_take (l : List ℚ) (n i : ℕ) (h : i < n) :
    (l.take n).getD i 0 = l.getD i 0 := by
  rw [List.getD_eq_getElem?_getD, List.getD_eq_getElem?_getD, List.getElem?_take]
  rw [if_pos h]

/-- Evaluation of the EVEN branch of the line filter on a constructed internal
filter, in terms of the unreversed half tap list. -/
theorem separableLine_even_eval (h : List ℚ) (m : ℕ) (hm : 0 < m) (hlen : h.length = m)
    (sz o0 : ℕ) (ho : o0 < sz) (hsz : sz = 2 * m - 1) (line : ℤ → ℚ) (ii : ℤ) :
    separableLine { filter := h.reverse, size := sz, dataSize := m,
                    origin := sz - o0 - 1, isComplex := false,
                    symmetry := FilterSymmetry.EVEN } line ii
      = h.getD (m - 1) 0 * line (ii + (o0 : ℤ) - (m : ℤ) + 1)
        + ∑ j ∈ Finset.Ico 1 m, h.getD (m - 1 - j) 0 *
            (line ((ii + (o0 : ℤ) - (m : ℤ) + 1) + (j : ℤ))
              + line ((ii + (o0 : ℤ) - (m : ℤ) + 1) - (j : ℤ))) := by
  unfold separableLine
  dsimp only
  rw [getD_reverse h 0 (by omega)]
  have harg : ii - ((sz - o0 - 1 : ℕ) : ℤ) + ((m : ℤ) - 1) = ii + (o0 : ℤ) - (m : ℤ) + 1 := by
    omega
  rw [harg]
  congr 1
  · rw [hlen, Nat.sub_zero]
  refine Finset.sum_congr rfl (fun j hj => ?_)
  rw [Finset.mem_Ico] at hj
  rw [getD_reverse h j (by omega), hlen]

/-- Evaluation of the ODD branch of the line filter on a constructed internal
filter, in terms of the unreversed half tap list. -/
theorem separableLine_odd_eval (h : List ℚ) (m : ℕ) (hm : 0 < m) (hlen : h.length = m)
    (sz o0 : ℕ) (ho : o0 < sz) (hsz : sz = 2 * m - 1) (line : ℤ → ℚ) (ii : ℤ) :
    separableLine { filter := h.reverse, size := sz, dataSize := m,
                    origin := sz - o0 - 1, isComplex := false,
                    symmetry := FilterSymmetry.ODD } line ii
      = h.getD (m - 1) 0 * line (ii + (o0 : ℤ) - (m : ℤ) + 1)
        + ∑ j ∈ Finset.Ico 1 m, h.getD (m - 1 - j) 0 *
            (line ((ii + (o0 : ℤ) - (m : ℤ) + 1) + (j : ℤ))
              - line ((ii + (o0 : ℤ) - (m : ℤ) + 1) - (j : ℤ))) := by
  unfold separableLine
  dsimp only
  rw [getD_reverse h 0 (by omega)]
  have harg : ii - ((sz - o0 - 1 : ℕ) : ℤ) + ((m : ℤ) - 1) = ii + (o0 : ℤ) - (m : ℤ) + 1 := by
    omega
  rw [harg]
  congr 1
  · rw [hlen, Nat.sub_zero]
  refine Finset.sum_congr rfl (fun j hj => ?_)
  rw [Finset.mem_Ico] at hj
  rw [getD_reverse h j (by omega), hlen]

/-- Evaluation of the D_EVEN branch of the line filter on a constructed
internal filter, in terms of the unreversed half tap list. -/
theorem separableLine_deven_eval (h : List ℚ) (m : ℕ) (hm : 0 < m) (hlen : h.length = m)
    (sz o0 : ℕ) (ho : o0 < sz) (hsz : sz = 2 * m) (line : ℤ → ℚ) (ii : ℤ) :
    separableLine { filter := h.reverse, size := sz, dataSize := m,
                    origin := sz - o0 - 1, isComplex := false,
                    symmetry := FilterSymmetry.D_EVEN } line ii
      = ∑ j ∈ Finset.range m, h.getD (m - 1 - j) 0 *
          (line ((ii + (o0 : ℤ) - (m : ℤ)) + (j : ℤ))
            + line ((ii + (o0 : ℤ) - (m : ℤ)) - 1 - (j : ℤ))) := by
  unfold separableLine
  dsimp only
  refine Finset.sum_congr rfl (fun j hj => ?_)
  rw [Finset.mem_range] at hj
  rw [getD_reverse h j (by omega), hlen]
  congr 3
  · omega
  · omega

/-- Evaluation of the D_ODD branch of the line filter on a constructed internal
filter, in terms of the unreversed half tap list. -/
theorem separableLine_dodd_eval (h : List ℚ) (m : ℕ) (hm : 0 < m) (hlen : h.length = m)
    (sz o0 : ℕ) (ho : o0 < sz) (hsz : sz = 2 * m) (line : ℤ → ℚ) (ii : ℤ) :
    separableLine { filter := h.reverse, size := sz, dataSize := m,
                    origin := sz - o0 - 1, isComplex := false,
                    symmetry := FilterSymmetry.D_ODD } line ii
      = ∑ j ∈ Finset.range m, h.getD (m - 1 - j) 0 *
          (line ((ii + (o0 : ℤ) - (m : ℤ)) + (j : ℤ))
            - line ((ii + (o0 : ℤ) - (m : ℤ)) - 1 - (j : ℤ))) := by
  unfold separableLine
  dsimp only
  refine Finset.sum_congr rfl (fun j hj => ?_)
  rw [Finset.mem_range] at hj
  rw [getD_reverse h j (by omega), hlen]
  congr 3
  · omega
  · omega

/-- Parsing the general symmetry tag. -/
theorem parseSymmetry_general : parseSymmetry "general" false = .ok .GENERAL := by rfl

/-- Parsing the even symmetry tag. -/
theorem parseSymmetry_even : parseSymmetry "even" false = .ok .EVEN := by rfl

/-- Parsing the odd symmetry tag. -/
theorem parseSymmetry_odd : parseSymmetry "odd" false = .ok .ODD := by rfl

/-- Parsing the d-even symmetry tag. -/
theorem parseSymmetry_deven : parseSymmetry "d-even" false = .ok .D_EVEN := by rfl

/-- Parsing the d-odd symmetry tag. -/
theorem parseSymmetry_dodd : parseSymmetry "d-odd" false = .ok .D_ODD := by rfl

/-- A non-negative requested origin is taken verbatim and bounded by the size. -/
theorem resolveOrigin_nonneg {n : ℕ} {o : ℤ} {r : ℕ} (h0 : 0 ≤ o)
    (h : resolveOrigin n o = .ok r) : r = o.toNat ∧ o.toNat < n := by
  unfold resolveOrigin at h
  rw [if_neg (by omega)] at h
  split at h
  · cases h
  · cases h
    omega

/-- The even-tag half of claim C2: general taps versus folded even taps. -/
theorem c2_even_part (m : ℕ) (T : List ℚ) (o : ℤ) (fdg fde : InternOneDimensionalFilter)
    (hm : 0 < m) (hT : T.length = 2 * m - 1)
    (hsym : ∀ j, j < m → T.getD (m - 1 + j) 0 = T.getD (m - 1 - j) 0)
    (hg : InternOneDimensionalFilter.make { filter := T, origin := o, symmetry := "general" } false
            = .ok fdg)
    (he : InternOneDimensionalFilter.make { filter := T.take m, origin := o, symmetry := "even" } false
            = .ok fde)
    (line : ℤ → ℚ) (ii : ℤ) :
    separableLine fdg line ii = separableLine fde line ii := by
  have hTne : T ≠ [] := by
    intro h0
    rw [h0] at hT
    simp only [List.length_nil] at hT
    omega
  have htne : T.take m ≠ [] := by
    intro h0
    have h1 := congrArg List.length h0
    rw [List.length_take] at h1
    simp only [List.length_nil] at h1
    omega
  obtain ⟨symg, og, hpg, hrg, rfl⟩ := make_real_ok rfl hTne hg
  obtain ⟨syme, oe, hpe, hre, rfl⟩ := make_real_ok rfl htne he
  dsimp only at hpg hrg hpe hre ⊢
  have hsg : symg = .GENERAL := by
    have h2 := parseSymmetry_general.symm.trans hpg
    exact (Except.ok.inj h2).symm
  have hse : syme = .EVEN := by
    have h2 := parseSymmetry_even.symm.trans hpe
    exact (Except.ok.inj h2).symm
  subst hsg hse
  have hlt : (T.take m).length = m := by
    rw [List.length_take]
    omega
  rw [hlt] at hre ⊢
  have hszg : expandSize FilterSymmetry.GENERAL T.length = T.length := rfl
  have hsze : expandSize FilterSymmetry.EVEN m = m + (m - 1) := rfl
  rw [hszg] at hrg ⊢
  rw [hsze] at hre ⊢
  have hsize : m + (m - 1) = T.length := by omega
  rw [hsize] at hre
  have hoe : og = oe := by
    exact (Except.ok.inj (hrg.symm.trans hre))
  subst hoe
  have hog : og < T.length := resolveOrigin_ok_lt hrg (by omega)
  rw [separableLine_general_taps T og hog line ii]
  rw [separableLine_even_eval (T.take m) m hm hlt (m + (m - 1)) og (by omega) (by omega) line ii]
  have hfold := sum_even_fold m hm T hsym line (ii + (og : ℤ) - (m : ℤ) + 1)
  have hcenter : (T.take m).getD (m - 1) 0 = T.getD (m - 1) 0 := getD_take T m (m - 1) (by omega)
  rw [hcenter]
  have hrhs : ∑ j ∈ Finset.Ico 1 m, (T.take m).getD (m - 1 - j) 0 *
        (line ((ii + (og : ℤ) - (m : ℤ) + 1) + (j : ℤ))
          + line ((ii + (og : ℤ) - (m : ℤ) + 1) - (j : ℤ)))
      = ∑ j ∈ Finset.Ico 1 m, T.getD (m - 1 - j) 0 *
        (line ((ii + (og : ℤ) - (m : ℤ) + 1) + (j : ℤ))
          + line ((ii + (og : ℤ) - (m : ℤ) + 1) - (j : ℤ))) := by
    refine Finset.sum_congr rfl (fun j hj => ?_)
    rw [getD_take T m (m - 1 - j) (by omega)]
  rw [hrhs, hT, ← hfold]
  refine Finset.sum_congr rfl (fun k hk => ?_)
  congr 2
  omega

/-- The odd-tag half of claim C2: general taps versus folded odd taps. -/
theorem c2_odd_part (m : ℕ) (T : List ℚ) (o : ℤ) (fdg fdo : InternOneDimensionalFilter)
    (hm : 0 < m) (hT : T.length = 2 * m - 1)
    (hsym : ∀ j, 1 ≤ j → j < m → T.getD (m - 1 + j) 0 = - T.getD (m - 1 - j) 0)
    (hg : InternOneDimensionalFilter.make { filter := T, origin := o, symmetry := "general" } false
            = .ok fdg)
    (he : InternOneDimensionalFilter.make { filter := T.take m, origin := o, symmetry := "odd" } false
            = .ok fdo)
    (line : ℤ → ℚ) (ii : ℤ) :
    separableLine fdg line ii = separableLine fdo line ii := by
  have hTne : T ≠ [] := by
    intro h0
    rw [h0] at hT
    simp only [List.length_nil] at hT
    omega
  have htne : T.take m ≠ [] := by
    intro h0
    have h1 := congrArg List.length h0
    rw [List.length_take] at h1
    simp only [List.length_nil] at h1
    omega
  obtain ⟨symg, og, hpg, hrg, rfl⟩ := make_real_ok rfl hTne hg
  obtain ⟨syme, oe, hpe, hre, rfl⟩ := make_real_ok rfl htne he
  dsimp only at hpg hrg hpe hre ⊢
  have hsg : symg = .GENERAL := by
    have h2 := parseSymmetry_general.symm.trans hpg
    exact (Except.ok.inj h2).symm
  have hse : syme = .ODD := by
    have h2 := parseSymmetry_odd.symm.trans hpe
    exact (Except.ok.inj h2).symm
  subst hsg hse
  have hlt : (T.take m).length = m := by
    rw [List.length_take]
    omega
  rw [hlt] at hre ⊢
  have hszg : expandSize FilterSymmetry.GENERAL T.length = T.length := rfl
  have hsze : expandSize FilterSymmetry.ODD m = m + (m - 1) := rfl
  rw [hszg] at hrg ⊢
  rw [hsze] at hre ⊢
  have hsize : m + (m - 1) = T.length := by omega
  rw [hsize] at hre
  have hoe : og = oe := by
    exact (Except.ok.inj (hrg.symm.trans hre))
  subst hoe
  have hog : og < T.length := resolveOrigin_ok_lt hrg (by omega)
  rw [separableLine_general_taps T og hog line ii]
  rw [separableLine_odd_eval (T.take m) m hm hlt (m + (m - 1)) og (by omega) (by omega) line ii]
  have hfold := sum_odd_fold m hm T hsym line (ii + (og : ℤ) - (m : ℤ) + 1)
  have hcenter : (T.take m).getD (m - 1) 0 = T.getD (m - 1) 0 := getD_take T m (m - 1) (by omega)
  rw [hcenter]
  have hrhs : ∑ j ∈ Finset.Ico 1 m, (T.take m).getD (m - 1 - j) 0 *
        (line ((ii + (og : ℤ) - (m : ℤ) + 1) + (j : ℤ))
          - line ((ii + (og : ℤ) - (m : ℤ) + 1) - (j : ℤ)))
      = ∑ j ∈ Finset.Ico 1 m, T.getD (m - 1 - j) 0 *
        (line ((ii + (og : ℤ) - (m : ℤ) + 1) + (j : ℤ))
          - line ((ii + (og : ℤ) - (m : ℤ) + 1) - (j : ℤ))) := by
    refine Finset.sum_congr rfl (fun j hj => ?_)
    rw [getD_take T m (m - 1 - j) (by omega)]
  rw [hrhs, hT, ← hfold]
  refine Finset.sum_congr rfl (fun k hk => ?_)
  congr 2
  omega

/-- The d-even part of claim C2, with the origin shifted by one. -/
theorem c2_deven_part (m : ℕ) (T : List ℚ) (o : ℤ) (fdg fdd : InternOneDimensionalFilter)
    (hm : 0 < m) (hT : T.length = 2 * m) (ho : 0 ≤ o)
    (hsym : ∀ j, j < m → T.getD (m + j) 0 = T.getD (m - 1 - j) 0)
    (hg : InternOneDimensionalFilter.make { filter := T, origin := o, symmetry := "general" } false
            = .ok fdg)
    (he : InternOneDimensionalFilter.make
            { filter := T.take m, origin := o + 1, symmetry := "d-even" } false = .ok fdd)
    (line : ℤ → ℚ) (ii : ℤ) :
    separableLine fdg line ii = separableLine fdd line ii := by
  have hTne : T ≠ [] := by
    intro h0
    rw [h0] at hT
    simp only [List.length_nil] at hT
    omega
  have htne : T.take m ≠ [] := by
    intro h0
    have h1 := congrArg List.length h0
    rw [List.length_take] at h1
    simp only [List.length_nil] at h1
    omega
  obtain ⟨symg, og, hpg, hrg, rfl⟩ := make_real_ok rfl hTne hg
  obtain ⟨syme, oe, hpe, hre, rfl⟩ := make_real_ok rfl htne he
  dsimp only at hpg hrg hpe hre ⊢
  have hsg : symg = .GENERAL := by
    have h2 := parseSymmetry_general.symm.trans hpg
    exact (Except.ok.inj h2).symm
  have hse : syme = .D_EVEN := by
    have h2 := parseSymmetry_deven.symm.trans hpe
    exact (Except.ok.inj h2).symm
  subst hsg hse
  have hlt : (T.take m).length = m := by
    rw [List.length_take]
    omega
  rw [hlt] at hre ⊢
  have hszg : expandSize FilterSymmetry.GENERAL T.length = T.length := rfl
  have hsze : expandSize FilterSymmetry.D_EVEN m = m + m := rfl
  rw [hszg] at hrg ⊢
  rw [hsze] at hre ⊢
  obtain ⟨hogv, hoglt⟩ := resolveOrigin_nonneg ho hrg
  obtain ⟨hoev, hoelt⟩ := resolveOrigin_nonneg (by omega) hre
  have hoe : oe = og + 1 := by
    rw [hogv, hoev]
    omega
  subst hoe
  have hog : og < T.length := by omega
  rw [separableLine_general_taps T og hog line ii]
  rw [separableLine_deven_eval (T.take m) m hm hlt (m + m) (og + 1) (by omega) (by omega) line ii]
  have hfold := sum_deven_fold m T hsym line (ii + (og : ℤ) - (m : ℤ))
  have hrhs : ∑ j ∈ Finset.range m, (T.take m).getD (m - 1 - j) 0 *
        (line ((ii + ((og + 1 : ℕ) : ℤ) - (m : ℤ)) + (j : ℤ))
          + line ((ii + ((og + 1 : ℕ) : ℤ) - (m : ℤ)) - 1 - (j : ℤ)))
      = ∑ j ∈ Finset.range m, T.getD (m - 1 - j) 0 *
        (line ((ii + (og : ℤ) - (m : ℤ)) + 1 + (j : ℤ))
          + line ((ii + (og : ℤ) - (m : ℤ)) - (j : ℤ))) := by
    refine Finset.sum_congr rfl (fun j hj => ?_)
    rw [Finset.mem_range] at hj
    rw [getD_take T m (m - 1 - j) (by omega)]
    congr 3
    · omega
    · omega
  rw [hrhs, hT, ← hfold]
  refine Finset.sum_congr rfl (fun k hk => ?_)
  congr 2
  omega

/-- The d-odd part of claim C2, with the origin shifted by one. -/
theorem c2_dodd_part (m : ℕ) (T : List ℚ) (o : ℤ) (fdg fdd : InternOneDimensionalFilter)
    (hm : 0 < m) (hT : T.length = 2 * m) (ho : 0 ≤ o)
    (hsym : ∀ j, j < m → T.getD (m + j) 0 = - T.getD (m - 1 - j) 0)
    (hg : InternOneDimensionalFilter.make { filter := T, origin := o, symmetry := "general" } false
            = .ok fdg)
    (he : InternOneDimensionalFilter.make
            { filter := T.take m, origin := o + 1, symmetry := "d-odd" } false = .ok fdd)
    (line : ℤ → ℚ) (ii : ℤ) :
    separableLine fdg line ii = separableLine fdd line ii := by
  have hTne : T ≠ [] := by
    intro h0
    rw [h0] at hT
    simp only [List.length_nil] at hT
    omega
  have htne : T.take m ≠ [] := by
    intro h0
    have h1 := congrArg List.length h0
    rw [List.length_take] at h1
    simp only [List.length_nil] at h1
    omega
  obtain ⟨symg, og, hpg, hrg, rfl⟩ := make_real_ok rfl hTne hg
  obtain ⟨syme, oe, hpe, hre, rfl⟩ := make_real_ok rfl htne he
  dsimp only at hpg hrg hpe hre ⊢
  have hsg : symg = .GENERAL := by
    have h2 := parseSymmetry_general.symm.trans hpg
    exact (Except.ok.inj h2).symm
  have hse : syme = .D_ODD := by
    have h2 := parseSymmetry_dodd.symm.trans hpe
    exact (Except.ok.inj h2).symm
  subst hsg hse
  have hlt : (T.take m).length = m := by
    rw [List.length_take]
    omega
  rw [hlt] at hre ⊢
  have hszg : expandSize FilterSymmetry.GENERAL T.length = T.length := rfl
  have hsze : expandSize FilterSymmetry.D_ODD m = m + m := rfl
  rw [hszg] at hrg ⊢
  rw [hsze] at hre ⊢
  obtain ⟨hogv, hoglt⟩ := resolveOrigin_nonneg ho hrg
  obtain ⟨hoev, hoelt⟩ := resolveOrigin_nonneg (by omega) hre
  have hoe : oe = og + 1 := by
    rw [hogv, hoev]
    omega
  subst hoe
  have hog : og < T.length := by omega
  rw [separableLine_general_taps T og hog line ii]
  rw [separableLine_dodd_eval (T.take m) m hm hlt (m + m) (og + 1) (by omega) (by omega) line ii]
  have hfold := sum_dodd_fold m T hsym line (ii + (og : ℤ) - (m : ℤ))
  have hrhs : ∑ j ∈ Finset.range m, (T.take m).getD (m - 1 - j) 0 *
        (line ((ii + ((og + 1 : ℕ) : ℤ) - (m : ℤ)) + (j : ℤ))
          - line ((ii + ((og + 1 : ℕ) : ℤ) - (m : ℤ)) - 1 - (j : ℤ)))
      = ∑ j ∈ Finset.range m, T.getD (m - 1 - j) 0 *
        (line ((ii + (og : ℤ) - (m : ℤ)) + 1 + (j : ℤ))
          - line ((ii + (og : ℤ) - (m : ℤ)) - (j : ℤ))) := by
    refine Finset.sum_congr rfl (fun j hj => ?_)
    rw [Finset.mem_range] at hj
    rw [getD_take T m (m - 1 - j) (by omega)]
    congr 3
    · omega
    · omega
  rw [hrhs, hT, ← hfold]
  refine Finset.sum_congr rfl (fun k hk => ?_)
  congr 2
  omega

/-- C2, amended.  For every boundary-extended input line: a filter given as the
full odd-length tap list with symmetry tag "general" produces output identical
to the same logical filter given as the non-redundant half of the taps with tag
"even" (taps symmetric about the center) or "odd" (taps antisymmetric about the
center), at every origin.  The even-length mirrored variants "d-even"/"d-odd"
match the general filter only when their origin exceeds the general filter's
origin by one; at equal origins the outputs are shifted by one sample (see the
counterexample).  Boundary conditions are covered by quantifying over every
extended line. -/
theorem C2_symmetry_tags_amended :
    (∀ (m : ℕ) (T : List ℚ) (o : ℤ) (fdg fde : InternOneDimensionalFilter),
      0 < m → T.length = 2 * m - 1 →
      (∀ j, j < m → T.getD (m - 1 + j) 0 = T.getD (m - 1 - j) 0) →
      InternOneDimensionalFilter.make { filter := T, origin := o, symmetry := "general" } false
          = .ok fdg →
      InternOneDimensionalFilter.make { filter := T.take m, origin := o, symmetry := "even" } false
          = .ok fde →
      ∀ (line : ℤ → ℚ) (ii : ℤ), separableLine fdg line ii = separableLine fde line ii) ∧
    (∀ (m : ℕ) (T : List ℚ) (o : ℤ) (fdg fdo : InternOneDimensionalFilter),
      0 < m → T.length = 2 * m - 1 →
      (∀ j, 1 ≤ j → j < m → T.getD (m - 1 + j) 0 = - T.getD (m - 1 - j) 0) →
      InternOneDimensionalFilter.make { filter := T, origin := o, symmetry := "general" } false
          = .ok fdg →
      InternOneDimensionalFilter.make { filter := T.take m, origin := o, symmetry := "odd" } false
          = .ok fdo →
      ∀ (line : ℤ → ℚ) (ii : ℤ), separableLine fdg line ii = separableLine fdo line ii) ∧
    (∀ (m : ℕ) (T : List ℚ) (o : ℤ) (fdg fdd : InternOneDimensionalFilter),
      0 < m → T.length = 2 * m → 0 ≤ o →
      (∀ j, j < m → T.getD (m + j) 0 = T.getD (m - 1 - j) 0) →
      InternOneDimensionalFilter.make { filter := T, origin := o, symmetry := "general" } false
          = .ok fdg →
      InternOneDimensionalFilter.make
          { filter := T.take m, origin := o + 1, symmetry := "d-even" } false = .ok fdd →
      ∀ (line : ℤ → ℚ) (ii : ℤ), separableLine fdg line ii = separableLine fdd line ii) ∧
    (∀ (m : ℕ) (T : List ℚ) (o : ℤ) (fdg fdd : InternOneDimensionalFilter),
      0 < m → T.length = 2 * m → 0 ≤ o →
      (∀ j, j < m → T.getD (m + j) 0 = - T.getD (m - 1 - j) 0) →
      InternOneDimensionalFilter.make { filter := T, origin := o, symmetry := "general" } false
          = .ok fdg →
      InternOneDimensionalFilter.make
          { filter := T.take m, origin := o + 1, symmetry := "d-odd" } false = .ok fdd →
      ∀ (line : ℤ → ℚ) (ii : ℤ), separableLine fdg line ii = separableLine fdd line ii) :=
  ⟨c2_even_part, c2_odd_part, c2_deven_part, c2_dodd_part⟩

/-- C2, counterexample to the claim as stated: the two-tap general filter
`[1, 1]` and the "d-even" filter with half tap list `[1]` describe the same
logical filter and get the same default origin, yet produce different outputs
on the line `t`. -/
theorem C2_symmetry_tags_counterexample :
    InternOneDimensionalFilter.make { filter := [1, 1], symmetry := "general" } false
        = .ok { filter := [1, 1], size := 2, dataSize := 2, origin := 0,
                isComplex := false, symmetry := .GENERAL }
    ∧ InternOneDimensionalFilter.make { filter := [1], symmetry := "d-even" } false
        = .ok { filter := [1], size := 2, dataSize := 1, origin := 0,
                isComplex := false, symmetry := .D_EVEN }
    ∧ separableLine
        { filter := [1, 1], size := 2, dataSize := 2, origin := 0,
          isComplex := false, symmetry := .GENERAL } (fun t => (t : ℚ)) 0
      ≠ separableLine
        { filter := [1], size := 2, dataSize := 1, origin := 0,
          isComplex := false, symmetry := .D_EVEN } (fun t => (t : ℚ)) 0 := by
  refine ⟨by rfl, by rfl, ?_⟩
  norm_num [separableLine, Finset.sum_range_succ]

/-- Witness for C2: the symmetric taps `[1, 2, 1]` run as "general" and as
"even" with half `[1, 2]` coincide at a concrete sample of a concrete line. -/
theorem C2_symmetry_tags_witness :
    separableLine
        { filter := [1, 2, 1], size := 3, dataSize := 3, origin := 1,
          isComplex := false, symmetry := .GENERAL } (fun t => (t : ℚ)) 3
      = separableLine
        { filter := [2, 1], size := 3, dataSize := 2, origin := 1,
          isComplex := false, symmetry := .EVEN } (fun t => (t : ℚ)) 3 :=
  C2_symmetry_tags_amended.1 2 [1, 2, 1] (-1)
    { filter := [1, 2, 1], size := 3, dataSize := 3, origin := 1,
      isComplex := false, symmetry := .GENERAL }
    { filter := [2, 1], size := 3, dataSize := 2, origin := 1,
      isComplex := false, symmetry := .EVEN }
    (by decide) (by decide) (by decide) (by rfl) (by rfl) (fun t => (t : ℚ)) 3

/-- Error message standing for `E::DIMENSIONALITY_NOT_SUPPORTED`. -/
def errDimensionality : String := "Dimensionality not supported"

/-- Error message standing for `E::ARRAY_PARAMETER_WRONG_LENGTH`. -/
def errArrayParam : String := "Array parameter has the wrong number of elements"

/-- A scalar image of the model: a list of dimension sizes together with the
sample values, addressed by integer coordinates (one entry per dimension).
Only coordinates inside the box `[0, sizes)` are meaningful; images are always
forged.  The claims under study all run the framework with
`SeparableOption::AsScalarImage` or `FullOption::AsScalarImage`, so the tensor
dimension is not modelled. -/
structure Image where
  sizes : List ℕ
  data : List ℤ → ℚ

/-- The logical (unreversed) origin of a constructed internal filter, inverting
the final `origin = size - origin - 1` of the constructor. -/
def logicalOrigin (fd : InternOneDimensionalFilter) : ℕ := fd.size - fd.origin - 1

/-- The per-axis border computation of `SeparableConvolution` (`convolution.cpp`
lines 348-350 and 354-356): `b = max(b, sz - b - 1)` in `dip::uint` arithmetic,
with the unsigned wrap-around made explicit (it occurs only for `sz = 0`). -/
def borderWidth (sz b : ℕ) : ℕ := max b ((sz + 2 ^ 64 - (b + 1)) % 2 ^ 64)

/-- The `border` array of `SeparableConvolution` (`convolution.cpp` lines
345-359): one shared value when a single filter is given, else one value per
dimension. -/
def separableBorder (nDims : ℕ) (filterData : List InternOneDimensionalFilter) : List ℕ :=
  if filterData.length = 1 then
    List.replicate nDims
      (borderWidth (filterData.getD 0 default).size (filterData.getD 0 default).origin)
  else
    (List.range nDims).map fun ii =>
      borderWidth (filterData.getD ii default).size (filterData.getD ii default).origin

/-- The `process` array handling of `SeparableConvolution` (`convolution.cpp`
lines 361-378): an empty array selects all dimensions, a non-empty one must
have one entry per dimension; a single shared meaningless filter switches all
dimensions off; with one filter per dimension, a dimension is switched off when
its size is at most 1 or its filter is meaningless. -/
def separableProcess (inSizes : List ℕ) (filterData : List InternOneDimensionalFilter)
    (process0 : List Bool) : Except String (List Bool) :=
  let nDims := inSizes.length
  if process0.length ≠ 0 ∧ process0.length ≠ nDims then .error errArrayParam
  else
    let process := if process0.length = 0 then List.replicate nDims true else process0
    if filterData.length = 1 then
      if IsMeaninglessFilter (filterData.getD 0 default) then
        .ok (List.replicate nDims false)
      else .ok process
    else
      .ok ((List.range nDims).map fun ii =>
        process.getD ii false &&
          !(inSizes.getD ii 0 ≤ 1 || IsMeaninglessFilter (filterData.getD ii default)))

/-- Modelled from the spec: `Framework::Separable` (not part of the shown
sources).  "Given one array, an output array, one 1-D filter per dimension (or
one filter reused for every dimension), per-dimension boundary conditions, and
a bitset selecting which dimensions to process, apply each selected filter
along its axis, in dimension order, using the previous axis's output as the
next axis's input", with "output element count and tensor shape equal
input's".  `extendLine` models the boundary condition: it receives the line
length and the in-range samples and produces the boundary-extended line (the
`border` argument only determines how many extended samples the real framework
materialises into the line buffer, so the model takes and ignores it).  The
filter selection `filter_[procDim]` with `procDim = 0` for a single shared
filter follows `SeparableConvolutionLineFilter::Filter` (`convolution.cpp`
lines 181-184). -/
def SeparableFramework (img : Image) (filterData : List InternOneDimensionalFilter)
    (process : List Bool) (border : List ℕ)
    (extendLine : ℕ → (ℤ → ℚ) → (ℤ → ℚ)) : Image :=
  (List.range img.sizes.length).foldl
    (fun im d =>
      if process.getD d false then
        { sizes := im.sizes,
          data := fun coords =>
            separableLine
              (filterData.getD (if 1 < filterData.length then d else 0) default)
              (extendLine (im.sizes.getD d 0) (fun t => im.data (coords.set d t)))
              (coords.getD d 0) }
      else im)
    img

/-- The entry point `dip::SeparableConvolution` (`convolution.cpp` lines
310-412): check the dimensionality and the filter-array length, decide whether
any filter is complex, build the internal filters, compute the border array,
resolve the process array, and hand over to the separable framework.  The
data-type suggestion (`SuggestFlex`/`SuggestComplex`) picks a floating-point
width and does not change values in this exact model. -/
def SeparableConvolution (img : Image) (filterArray : List OneDimensionalFilter)
    (extendLine : ℕ → (ℤ → ℚ) → (ℤ → ℚ)) (process0 : List Bool) :
    Except String Image :=
  let nDims := img.sizes.length
  if nDims < 1 then .error errDimensionality
  else if filterArray.length ≠ 1 ∧ filterArray.length ≠ nDims then .error errArrayParam
  else
    let isComplexFilter := filterArray.any (fun f => f.isComplex)
    match filterArray.mapM (fun f => InternOneDimensionalFilter.make f isComplexFilter) with
    | .error e => .error e
    | .ok filterData =>
      let border := separableBorder nDims filterData
      match separableProcess img.sizes filterData process0 with
      | .error e => .error e
      | .ok process =>
        .ok (SeparableFramework img filterData process border extendLine)

/-- Modelled from the spec: the "zero-fill" boundary condition of the boundary
condition vocabulary, as a line extension: out-of-range samples read zero. -/
def zeroExtendLine (len : ℕ) (line : ℤ → ℚ) : ℤ → ℚ := fun t =>
  if 0 ≤ t ∧ t < (len : ℤ) then line t else 0


/-- A nonempty filter keeps a positive size through symmetry expansion. -/
theorem expandSize_pos (sym : FilterSymmetry) (n : ℕ) (hn : 0 < n) : 0 < expandSize sym n := by
  cases sym <;> simp only [expandSize] <;> omega

/-- C10, amended.  For a real filter with at least one tap and a recognised
symmetry tag: a negative requested origin never causes a throw and is assigned
the central index (the logical, symmetry-expanded size divided by two, rounded
down); a non-negative origin at least the logical size makes the constructor
throw "Origin outside of filter"; a non-negative origin below the logical size
is accepted unchanged.  For a zero-length tap list the origin is never
inspected (see the counterexample), hence the nonempty-filter hypothesis. -/
theorem C10_origin_amended :
    ∀ (f : OneDimensionalFilter) (sym : FilterSymmetry),
      f.isComplex = false → f.filter ≠ [] →
      parseSymmetry f.symmetry false = .ok sym →
      ((f.origin < 0 →
          ∃ fd, InternOneDimensionalFilter.make f false = .ok fd ∧
            fd.size = expandSize sym f.filter.length ∧
            logicalOrigin fd = fd.size / 2) ∧
        (0 ≤ f.origin → expandSize sym f.filter.length ≤ f.origin.toNat →
          InternOneDimensionalFilter.make f false = .error errOriginOutside) ∧
        (0 ≤ f.origin → f.origin.toNat < expandSize sym f.filter.length →
          ∃ fd, InternOneDimensionalFilter.make f false = .ok fd ∧
            logicalOrigin fd = f.origin.toNat)) := by
  intro f sym hc hne hp
  have hlen : f.filter.length ≠ 0 := by
    intro h0
    exact hne (List.length_eq_zero.mp h0)
  have hesz : 0 < expandSize sym f.filter.length := expandSize_pos sym _ (by omega)
  unfold InternOneDimensionalFilter.make
  simp only [hc, false_and, if_false, Bool.false_eq_true, ite_false, if_neg hlen]
  rw [hp]
  dsimp only
  refine ⟨?_, ?_, ?_⟩
  · intro hneg
    rw [show resolveOrigin (expandSize sym f.filter.length) f.origin
          = .ok (expandSize sym f.filter.length / 2) from by
        unfold resolveOrigin
        rw [if_pos hneg]]
    dsimp only
    refine ⟨_, rfl, rfl, ?_⟩
    unfold logicalOrigin
    dsimp only
    omega
  · intro hpos hge
    rw [show resolveOrigin (expandSize sym f.filter.length) f.origin = .error errOriginOutside from by
      unfold resolveOrigin
      rw [if_neg (by omega), if_pos hge]]
  · intro hpos hlt
    rw [show resolveOrigin (expandSize sym f.filter.length) f.origin = .ok f.origin.toNat from by
      unfold resolveOrigin
      rw [if_neg (by omega), if_neg (by omega)]]
    dsimp only
    refine ⟨_, rfl, ?_⟩
    unfold logicalOrigin
    dsimp only
    omega

/-- C10, counterexample to the claim as stated: a zero-length filter with the
out-of-range origin 5 does not make the constructor throw; the origin check at
`convolution.cpp` line 108 sits inside the `size != 0` block. -/
theorem C10_origin_counterexample :
    InternOneDimensionalFilter.make { filter := [], origin := 5, symmetry := "general" } false
      = .ok { filter := [], size := 0, dataSize := 0, origin := 0,
              isComplex := false, symmetry := .GENERAL } := by rfl

/-- Witness for C10: a two-tap filter with the default origin -1. -/
theorem C10_origin_witness :
    ∃ fd, InternOneDimensionalFilter.make
        { filter := [5, 7], origin := -1, symmetry := "general" } false = .ok fd ∧
      fd.size = 2 ∧ logicalOrigin fd = fd.size / 2 := by
  obtain ⟨fd, h1, h2, h3⟩ :=
    (C10_origin_amended { filter := [5, 7], origin := -1, symmetry := "general" }
      .GENERAL rfl (by decide) (by rfl)).1 (by decide)
  exact ⟨fd, h1, h2, h3⟩

/-- The border value computed from the reversed origin equals the claimed
`max(origin, length - origin - 1)` over the logical origin. -/
theorem c4_border_formula (f : OneDimensionalFilter) (fd : InternOneDimensionalFilter)
    (hc : f.isComplex = false) (hne : f.filter ≠ [])
    (hmk : InternOneDimensionalFilter.make f false = .ok fd) (hsz : fd.size < 2 ^ 64) :
    borderWidth fd.size fd.origin
      = max (logicalOrigin fd) (fd.size - logicalOrigin fd - 1) := by
  obtain ⟨sym, o0, hp, hr, rfl⟩ := make_real_ok hc hne hmk
  dsimp only [logicalOrigin, borderWidth] at *
  have hlen : f.filter.length ≠ 0 := fun h0 => hne (List.length_eq_zero.mp h0)
  have hpos : 0 < expandSize sym f.filter.length := expandSize_pos sym _ (by omega)
  have ho : o0 < expandSize sym f.filter.length := resolveOrigin_ok_lt hr hpos
  omega

/-- Indexing a map over a range evaluates the function. -/
theorem getD_map_range {α : Type} (g : ℕ → α) (dfa : α) (n i : ℕ) (h : i < n) :
    (((List.range n).map g).getD i dfa) = g i := by
  rw [List.getD_eq_getElem?_getD, List.getElem?_map, List.getElem?_range h]
  rfl

/-- Indexing a replicated list yields the replicated element. -/
theorem getD_replicate {α : Type} (a d : α) (n i : ℕ) (h : i < n) :
    ((List.replicate n a).getD i d) = a := by
  rw [List.getD_eq_getElem?_getD, List.getElem?_replicate, if_pos h]
  rfl

/-- Each entry of the border array is the border width of the filter selected
for that axis. -/
theorem c4_border_per_axis (nDims : ℕ) (filterData : List InternOneDimensionalFilter)
    (ii : ℕ) (hii : ii < nDims) :
    (separableBorder nDims filterData).getD ii 0
      = borderWidth
          (filterData.getD (if filterData.length = 1 then 0 else ii) default).size
          (filterData.getD (if filterData.length = 1 then 0 else ii) default).origin := by
  unfold separableBorder
  split
  · exact getD_replicate _ _ _ _ hii
  · exact getD_map_range _ _ _ _ hii

/-- A fold whose steps preserve the sizes field preserves it overall. -/
theorem foldl_sizes_invariant (step : Image → ℕ → Image)
    (hstep : ∀ im d, (step im d).sizes = im.sizes) :
    ∀ (l : List ℕ) (im : Image), (l.foldl step im).sizes = im.sizes := by
  intro l
  induction l with
  | nil => intro im; rfl
  | cons d rest ih => intro im; rw [List.foldl_cons, ih, hstep]

/-- The separable framework never changes the image sizes. -/
theorem SeparableFramework_sizes (img : Image) (fd : List InternOneDimensionalFilter)
    (pr : List Bool) (b : List ℕ) (ext : ℕ → (ℤ → ℚ) → (ℤ → ℚ)) :
    (SeparableFramework img fd pr b ext).sizes = img.sizes := by
  unfold SeparableFramework
  apply foldl_sizes_invariant
  intro im d
  split <;> rfl

/-- A successful separable convolution returns an image of the input sizes. -/
theorem SeparableConvolution_ok_sizes {img : Image} {fa : List OneDimensionalFilter}
    {ext : ℕ → (ℤ → ℚ) → (ℤ → ℚ)} {p0 : List Bool} {out : Image}
    (h : SeparableConvolution img fa ext p0 = .ok out) : out.sizes = img.sizes := by
  unfold SeparableConvolution at h
  dsimp only at h
  split at h
  · cases h
  split at h
  · cases h
  rename_i h1 h2
  cases hm : fa.mapM (fun f => InternOneDimensionalFilter.make f (fa.any (fun f => f.isComplex))) with
  | error e => rw [hm] at h; cases h
  | ok filterData =>
    rw [hm] at h
    dsimp only at h
    cases hp : separableProcess img.sizes filterData p0 with
    | error e => rw [hp] at h; cases h
    | ok process =>
      rw [hp] at h
      dsimp only at h
      cases h
      apply SeparableFramework_sizes

/-- C4.  First part: for every constructed filter the per-axis border width of
`SeparableConvolution` equals `max(origin, length - origin - 1)` where `length`
is the symmetry-expanded filter size and `origin` the resolved logical origin
(the `2 ^ 64` bound excludes the unrepresentable unsigned wrap-around of a
zero-size filter).  Second part: the border array reads exactly that width for
every axis.  Third part: a successful call returns an image whose sizes, and
hence element count, equal the input's; the tensor shape is untouched because
the framework is invoked with `AsScalarImage`. -/
theorem C4_border_and_sizes :
    (∀ (f : OneDimensionalFilter) (fd : InternOneDimensionalFilter),
        f.isComplex = false → f.filter ≠ [] →
        InternOneDimensionalFilter.make f false = .ok fd → fd.size < 2 ^ 64 →
        borderWidth fd.size fd.origin
          = max (logicalOrigin fd) (fd.size - logicalOrigin fd - 1)) ∧
    (∀ (nDims : ℕ) (filterData : List InternOneDimensionalFilter) (ii : ℕ), ii < nDims →
        (separableBorder nDims filterData).getD ii 0
          = borderWidth
              (filterData.getD (if filterData.length = 1 then 0 else ii) default).size
              (filterData.getD (if filterData.length = 1 then 0 else ii) default).origin) ∧
    (∀ (img : Image) (fa : List OneDimensionalFilter) (ext : ℕ → (ℤ → ℚ) → (ℤ → ℚ))
        (p0 : List Bool) (out : Image),
        SeparableConvolution img fa ext p0 = .ok out → out.sizes = img.sizes) :=
  ⟨c4_border_formula, c4_border_per_axis, fun _ _ _ _ _ h => SeparableConvolution_ok_sizes h⟩

/-- Sample public filter for the C4 witness. -/
def c4SampleFilter : OneDimensionalFilter :=
  { filter := [1, 2, 3], origin := 0, symmetry := "general" }

/-- Sample internal filter for the C4 witness. -/
def c4SampleIntern : InternOneDimensionalFilter :=
  { filter := [3, 2, 1], size := 3, dataSize := 3, origin := 2,
    isComplex := false, symmetry := .GENERAL }

/-- Witness for C4 at a three-tap filter with origin 0. -/
theorem C4_border_and_sizes_witness :
    (borderWidth 3 2
        = max (logicalOrigin c4SampleIntern) (3 - logicalOrigin c4SampleIntern - 1)) ∧
    ((separableBorder 2 [c4SampleIntern]).getD 0 0 = borderWidth 3 2) ∧
    (∃ out, SeparableConvolution { sizes := [4], data := fun _ => 0 }
        [c4SampleFilter] zeroExtendLine [] = .ok out ∧ out.sizes = [4]) := by
  refine ⟨?_, ?_, ?_⟩
  · exact C4_border_and_sizes.1 c4SampleFilter c4SampleIntern rfl (by decide) (by rfl) (by decide)
  · exact C4_border_and_sizes.2.1 2 [c4SampleIntern] 0 (by decide)
  · refine ⟨_, rfl, ?_⟩
    exact C4_border_and_sizes.2.2 { sizes := [4], data := fun _ => 0 }
      [c4SampleFilter] zeroExtendLine [] _ rfl

/-- A fold whose steps do nothing returns the start value. -/
theorem foldl_congr_id (step : Image → ℕ → Image) (hstep : ∀ im d, step im d = im) :
    ∀ (l : List ℕ) (im : Image), l.foldl step im = im := by
  intro l
  induction l with
  | nil => intro im; rfl
  | cons d rest ih => intro im; rw [List.foldl_cons, hstep, ih]

/-- Reading any position of an all-false list gives false. -/
theorem getD_false_replicate_false (n : ℕ) : ∀ d, (List.replicate n false).getD d false = false := by
  intro d
  by_cases hd : d < n
  · exact getD_replicate _ _ _ _ hd
  · rw [List.getD_eq_default]
    rw [List.length_replicate]
    omega

/-- With no dimension selected, the separable framework is the identity. -/
theorem SeparableFramework_none (img : Image) (fd : List InternOneDimensionalFilter)
    (pr : List Bool) (b : List ℕ) (ext : ℕ → (ℤ → ℚ) → (ℤ → ℚ))
    (hpr : ∀ d, pr.getD d false = false) :
    SeparableFramework img fd pr b ext = img := by
  unfold SeparableFramework
  apply foldl_congr_id
  intro im d
  simp only [hpr d, Bool.false_eq_true, if_false]

/-- C5.  A zero-length filter, or a single tap equal to 1 with the general
symmetry tag, is meaningless; sharing it across dimensions turns every entry of
the process array off, and `SeparableConvolution` returns the input image
unchanged (bit-for-bit in this exact model, matching the claim for real sample
types where no data-type conversion happens). -/
theorem C5_identity_filter (img : Image) (f : OneDimensionalFilter)
    (ext : ℕ → (ℤ → ℚ) → (ℤ → ℚ)) (fd : InternOneDimensionalFilter)
    (hdim : 1 ≤ img.sizes.length)
    (hshape : f.filter = [] ∨ (f.filter = [1] ∧ (f.symmetry = "" ∨ f.symmetry = "general")))
    (hc : f.isComplex = false)
    (hmk : InternOneDimensionalFilter.make f false = .ok fd) :
    IsMeaninglessFilter fd = true ∧
    separableProcess img.sizes [fd] [] = .ok (List.replicate img.sizes.length false) ∧
    SeparableConvolution img [f] ext [] = .ok img := by
  have hfd : IsMeaninglessFilter fd = true := by
    rcases hshape with hnil | ⟨hone, hsym⟩
    · unfold InternOneDimensionalFilter.make at hmk
      simp only [hc, false_and, if_false, Bool.false_eq_true, ite_false, hnil] at hmk
      simp only [List.length_nil, if_pos rfl] at hmk
      cases hmk
      rfl
    · have hne : f.filter ≠ [] := by rw [hone]; intro h0; cases h0
      obtain ⟨sym, o0, hp, hr, rfl⟩ := make_real_ok hc hne hmk
      have hsg : sym = .GENERAL := by
        rcases hsym with h1 | h1 <;>
          (rw [h1] at hp; exact (Except.ok.inj ((by rfl :
            parseSymmetry _ false = .ok FilterSymmetry.GENERAL).symm.trans hp)).symm)
      subst hsg
      rw [hone]
      rfl
  refine ⟨hfd, ?_, ?_⟩
  · unfold separableProcess
    rw [if_neg (by simp)]
    dsimp only
    rw [if_pos (show ([fd] : List InternOneDimensionalFilter).length = 1 from rfl)]
    rw [show ([fd].getD 0 default) = fd from rfl, hfd]
    rw [if_pos rfl]
  · unfold SeparableConvolution
    dsimp only
    rw [if_neg (by omega), if_neg (by simp)]
    have hcplx : ([f].any fun g => g.isComplex) = false := by
      simp [hc]
    rw [hcplx]
    rw [show List.mapM (fun g => InternOneDimensionalFilter.make g false) [f]
          = .ok [fd] from by
      rw [List.mapM_cons, List.mapM_nil, hmk]
      rfl]
    dsimp only
    rw [show separableProcess img.sizes [fd] [] = .ok (List.replicate img.sizes.length false) from by
      unfold separableProcess
      rw [if_neg (by simp)]
      dsimp only
      rw [if_pos (show ([fd] : List InternOneDimensionalFilter).length = 1 from rfl)]
      rw [show ([fd].getD 0 default) = fd from rfl, hfd]
      rw [if_pos rfl]]
    dsimp only
    rw [SeparableFramework_none img [fd] _ _ ext (getD_false_replicate_false _)]

/-- Sample image for the C5 witness. -/
def c5SampleImage : Image := { sizes := [3, 4], data := fun _ => 5 }

/-- Identity filter for the C5 witness. -/
def c5SampleFilter : OneDimensionalFilter := { filter := [1], origin := -1, symmetry := "general" }

/-- Internal form of the identity filter for the C5 witness. -/
def c5SampleIntern : InternOneDimensionalFilter :=
  { filter := [1], size := 1, dataSize := 1, origin := 0,
    isComplex := false, symmetry := .GENERAL }

/-- Witness for C5 on a 3-by-4 constant image. -/
theorem C5_identity_filter_witness :
    IsMeaninglessFilter c5SampleIntern = true ∧
    separableProcess [3, 4] [c5SampleIntern] [] = .ok (List.replicate 2 false) ∧
    SeparableConvolution c5SampleImage [c5SampleFilter] zeroExtendLine [] = .ok c5SampleImage :=
  C5_identity_filter c5SampleImage c5SampleFilter zeroExtendLine c5SampleIntern
    (by decide) (Or.inr ⟨rfl, Or.inr rfl⟩) rfl (by rfl)

/-- A successful monadic map over `Except` succeeds pointwise, preserving
length. -/
theorem mapM_except_ok_parts {α β : Type} (f : α → Except String β) :
    ∀ (l : List α) (r : List β), l.mapM f = .ok r →
      r.length = l.length ∧
        ∀ (i : ℕ) (dfa : α) (dfb : β), i < l.length → f (l.getD i dfa) = .ok (r.getD i dfb) := by
  intro l
  induction l with
  | nil =>
    intro r h
    rw [List.mapM_nil] at h
    cases h
    exact ⟨rfl, fun i dfa dfb hi => by simp at hi⟩
  | cons a t ih =>
    intro r h
    rw [List.mapM_cons] at h
    cases hfa : f a with
    | error e => rw [hfa] at h; cases h
    | ok b =>
      rw [hfa] at h
      cases hmt : t.mapM f with
      | error e =>
        rw [hmt] at h
        cases h
      | ok bs =>
        rw [hmt] at h
        cases h
        obtain ⟨hlen, hpt⟩ := ih bs hmt
        refine ⟨by simp [hlen], ?_⟩
        intro i dfa dfb hi
        cases i with
        | zero => simpa using hfa
        | succ j =>
          simp only [List.getD_cons_succ]
          exact hpt j dfa dfb (by simp at hi; omega)

/-- Updating one list position leaves the others unchanged. -/
theorem getD_set_ne {α : Type} (l : List α) (d i : ℕ) (g : α) (dfa : α) (hne : i ≠ d) :
    (l.set d g).getD i dfa = l.getD i dfa := by
  rw [List.getD_eq_getElem?_getD, List.getD_eq_getElem?_getD, List.getElem?_set_ne (by omega)]

/-- Folds with pointwise equal steps are equal. -/
theorem foldl_congr_steps (s1 s2 : Image → ℕ → Image) :
    ∀ (l : List ℕ), (∀ im d, d ∈ l → s1 im d = s2 im d) →
      ∀ im, l.foldl s1 im = l.foldl s2 im := by
  intro l
  induction l with
  | nil => intro h im; rfl
  | cons a t ih =>
    intro h im
    rw [List.foldl_cons, List.foldl_cons, h im a (by simp)]
    exact ih (fun im2 d hd => h im2 d (by simp [hd])) _

/-- A list of real filters has no complex member. -/
theorem any_complex_false {l : List OneDimensionalFilter}
    (h : ∀ f ∈ l, f.isComplex = false) : (l.any fun f => f.isComplex) = false := by
  rw [List.any_eq_false]
  intro x hx
  rw [h x hx]
  simp

/-- Evaluation of the process-array handling for an empty requested process
array and one filter per dimension. -/
theorem separableProcess_empty_multi (inSizes : List ℕ)
    (filterData : List InternOneDimensionalFilter) (h : filterData.length ≠ 1) :
    separableProcess inSizes filterData [] =
      .ok ((List.range inSizes.length).map fun ii =>
        (List.replicate inSizes.length true).getD ii false &&
          !(inSizes.getD ii 0 ≤ 1 || IsMeaninglessFilter (filterData.getD ii default))) := by
  unfold separableProcess
  rw [if_neg (show ¬(List.length ([] : List Bool) ≠ 0 ∧
        List.length ([] : List Bool) ≠ inSizes.length) from by simp)]
  dsimp only
  rw [if_pos (show List.length ([] : List Bool) = 0 from rfl)]
  rw [if_neg h]

/-- With one filter per dimension, a dimension of size at most 1 is switched
off in the process array. -/
theorem c9_process_entry (inSizes : List ℕ) (filterData : List InternOneDimensionalFilter)
    (d : ℕ) (hlen2 : filterData.length ≠ 1) (hd : d < inSizes.length)
    (hsz : inSizes.getD d 0 ≤ 1) :
    ∀ pr, separableProcess inSizes filterData [] = .ok pr → pr.getD d false = false := by
  intro pr hpr
  rw [separableProcess_empty_multi inSizes filterData hlen2] at hpr
  cases hpr
  rw [getD_map_range _ _ _ _ hd]
  rw [decide_eq_true hsz]
  simp

/-- C9, amended.  When `SeparableConvolution` is called with one filter per
dimension on an image with more than one dimension, every dimension of size at
most 1 is excluded from processing, and replacing that dimension's filter by
any other (real, constructible) filter leaves the result unchanged.  For a
one-dimensional image the per-dimension call coincides with the shared-filter
call, which skips only meaningless filters (see the counterexample). -/
theorem C9_singleton_dimension_amended :
    ∀ (img : Image) (fa : List OneDimensionalFilter) (g : OneDimensionalFilter)
      (ext : ℕ → (ℤ → ℚ) → (ℤ → ℚ)) (d : ℕ)
      (filterData filterData2 : List InternOneDimensionalFilter),
      fa.length = img.sizes.length → 1 < img.sizes.length → d < img.sizes.length →
      img.sizes.getD d 0 ≤ 1 →
      (∀ f ∈ fa, f.isComplex = false) → g.isComplex = false →
      fa.mapM (fun f => InternOneDimensionalFilter.make f false) = .ok filterData →
      (fa.set d g).mapM (fun f => InternOneDimensionalFilter.make f false) = .ok filterData2 →
      (∀ pr, separableProcess img.sizes filterData [] = .ok pr → pr.getD d false = false) ∧
      SeparableConvolution img fa ext [] = SeparableConvolution img (fa.set d g) ext [] := by
  intro img fa g ext d fd1 fd2 hlen hdims hd hsz hreal hgreal hm1 hm2
  obtain ⟨hl1, hp1⟩ := mapM_except_ok_parts _ fa fd1 hm1
  obtain ⟨hl2, hp2⟩ := mapM_except_ok_parts _ (fa.set d g) fd2 hm2
  rw [List.length_set] at hl2
  have hpoint : ∀ i, i ≠ d → i < fa.length →
      fd2.getD i default = fd1.getD i default := by
    intro i hne hi
    have e1 := hp1 i default default hi
    have e2 := hp2 i default default (by rw [List.length_set]; exact hi)
    rw [getD_set_ne fa d i g default hne] at e2
    exact (Except.ok.inj (e2.symm.trans e1))
  have hprocd := c9_process_entry img.sizes fd1 d (by omega) hd hsz
  refine ⟨hprocd, ?_⟩
  have hany1 : (fa.any fun f => f.isComplex) = false := any_complex_false hreal
  have hany2 : ((fa.set d g).any fun f => f.isComplex) = false := by
    apply any_complex_false
    intro x hx
    rcases List.mem_or_eq_of_mem_set hx with h1 | h1
    · exact hreal x h1
    · rw [h1]
      exact hgreal
  have hproceq : separableProcess img.sizes fd2 [] = separableProcess img.sizes fd1 [] := by
    rw [separableProcess_empty_multi _ _ (show fd2.length ≠ 1 from by omega),
        separableProcess_empty_multi _ _ (show fd1.length ≠ 1 from by omega)]
    congr 1
    apply List.map_congr_left
    intro i hi
    rw [List.mem_range] at hi
    by_cases hie : i = d
    · subst hie
      rw [decide_eq_true hsz]
      simp
    · rw [hpoint i hie (by omega)]
  unfold SeparableConvolution
  dsimp only
  rw [List.length_set]
  have hg1 : ¬ (img.sizes.length < 1) := by omega
  have hg2 : ¬ (fa.length ≠ 1 ∧ fa.length ≠ img.sizes.length) := by omega
  rw [if_neg hg1, if_neg hg1, if_neg hg2, if_neg hg2]
  rw [hany1, hany2, hm1, hm2]
  dsimp only
  rw [hproceq]
  cases hpr : separableProcess img.sizes fd1 [] with
  | error e => rfl
  | ok pr =>
    dsimp only
    have hprd : pr.getD d false = false := hprocd pr hpr
    congr 1
    unfold SeparableFramework
    apply foldl_congr_steps
    intro im d2 hd2
    rw [List.mem_range] at hd2
    by_cases hc : pr.getD d2 false = true
    · have hne : d2 ≠ d := by
        intro he
        rw [he, hprd] at hc
        cases hc
      rw [if_pos hc, if_pos hc]
      rw [if_pos (show 1 < fd1.length from by omega), if_pos (show 1 < fd2.length from by omega)]
      rw [hpoint d2 hne (by omega)]
    · rw [if_neg hc, if_neg hc]

/-- Internal two-tap filter of the C9 counterexample. -/
def c9SampleIntern : InternOneDimensionalFilter :=
  { filter := [2], size := 1, dataSize := 1, origin := 0,
    isComplex := false, symmetry := .GENERAL }

/-- Public filter of the C9 counterexample. -/
def c9SampleFilter : OneDimensionalFilter := { filter := [2], origin := 0, symmetry := "general" }

/-- One-pixel image of the C9 counterexample. -/
def c9SampleImage1 : Image := { sizes := [1], data := fun _ => 1 }

/-- C9, counterexample to the claim as stated: on a one-dimensional image of
size 1, the single per-dimension filter takes the shared-filter branch, the
size-1 dimension stays selected, and the non-trivial filter `[2]` doubles the
pixel value. -/
theorem C9_singleton_dimension_counterexample :
    separableProcess [1] [c9SampleIntern] [] = .ok [true] ∧
    Except.map (fun out => out.data [0])
        (SeparableConvolution c9SampleImage1 [c9SampleFilter] zeroExtendLine [])
      = .ok 2 := by
  refine ⟨by rfl, ?_⟩
  have h1 : Except.map (fun out => out.data [0])
      (SeparableConvolution c9SampleImage1 [c9SampleFilter] zeroExtendLine [])
      = .ok (separableLine c9SampleIntern (zeroExtendLine 1 (fun _ => 1)) 0) := rfl
  rw [h1]
  norm_num [separableLine, c9SampleIntern, zeroExtendLine, Finset.sum_range_one]

/-- Two-dimensional image of the C9 witness. -/
def c9SampleImage2 : Image := { sizes := [2, 1], data := fun _ => 1 }

/-- First-axis filter of the C9 witness. -/
def c9FilterA : OneDimensionalFilter := { filter := [1, 1], origin := 0, symmetry := "general" }

/-- Second-axis filter of the C9 witness. -/
def c9FilterB : OneDimensionalFilter := { filter := [3], origin := 0, symmetry := "general" }

/-- Replacement filter of the C9 witness. -/
def c9FilterG : OneDimensionalFilter := { filter := [7], origin := 0, symmetry := "general" }

/-- Internal form of the first-axis filter of the C9 witness. -/
def c9InternA : InternOneDimensionalFilter :=
  { filter := [1, 1], size := 2, dataSize := 2, origin := 1,
    isComplex := false, symmetry := .GENERAL }

/-- Internal form of the second-axis filter of the C9 witness. -/
def c9InternB : InternOneDimensionalFilter :=
  { filter := [3], size := 1, dataSize := 1, origin := 0,
    isComplex := false, symmetry := .GENERAL }

/-- Internal form of the replacement filter of the C9 witness. -/
def c9InternG : InternOneDimensionalFilter :=
  { filter := [7], size := 1, dataSize := 1, origin := 0,
    isComplex := false, symmetry := .GENERAL }

/-- Witness for C9 on a 2-by-1 image. -/
theorem C9_singleton_dimension_witness :
    ([true, false].getD 1 false = false) ∧
    SeparableConvolution c9SampleImage2 [c9FilterA, c9FilterB] zeroExtendLine []
      = SeparableConvolution c9SampleImage2 ([c9FilterA, c9FilterB].set 1 c9FilterG)
          zeroExtendLine [] := by
  have h := C9_singleton_dimension_amended c9SampleImage2 [c9FilterA, c9FilterB] c9FilterG
    zeroExtendLine 1 [c9InternA, c9InternB] [c9InternA, c9InternG]
    (by decide) (by decide) (by decide) (by decide) (by decide) (by decide)
    (by rfl) (by rfl)
  exact ⟨h.1 [true, false] (by rfl), h.2⟩


/-- Error message standing for `E::DIMENSIONALITIES_DONT_MATCH`. -/
def errDimsDontMatch : String := "Dimensionalities don't match"

/-- Error message of `Convolution` when "separable" is forced on a
non-separable kernel (`convolution.cpp` line 685). -/
def errNotSeparable : String := "Filter kernel not separable."

/-- Error message standing for `DIP_THROW_INVALID_FLAG`. -/
def errInvalidFlag : String := "Invalid flag: "

/-- The strategy finally invoked by the convolution dispatcher. -/
inductive ConvStrategy
  | separable
  | fourier
  | direct
deriving DecidableEq

/-- The method-selection phase of `dip::Convolution` (`convolution.cpp` lines
634-674) computing the `(trySeparable, tryFourier, tryDirect)` flags.  The
method strings are the `S::DIRECT`, `S::FOURIER`, `S::SEPARABLE`, `S::BEST`
constants.  For "best" the empirically fitted cost model is evaluated in exact
rational arithmetic: `1.635e-8 * nx + 8.781e-4` for the Fourier path,
`1.434e-10 * n * ks + 4.987e-6 * ks` for the separable path and
`1.806e-10 * n * kp + 1.206e-5 * kp` for the direct path, with `n` the input
pixel count, `ks`/`kp` the sum/product of the kernel sizes, and `nx` the pixel
count of the boundary-expanded image. -/
def convolutionFlags (inSizes filterSizes : List ℕ) (method : String) :
    Except String (Bool × Bool × Bool) :=
  if method = "direct" then .ok (false, false, true)
  else if method = "fourier" then .ok (false, true, false)
  else if method = "separable" then .ok (true, false, false)
  else if method = "best" then
    let n : ℚ := inSizes.prod
    let ks : ℚ := filterSizes.sum
    let kp : ℚ := filterSizes.prod
    let nxN : ℕ := (List.zipWith (fun a b => a + b) inSizes filterSizes).prod
    let nx : ℚ := nxN
    let timeFourier := 1635 / 10 ^ 11 * nx + 8781 / 10 ^ 7
    let timeSeparable := 1434 / 10 ^ 13 * n * ks + 4987 / 10 ^ 9 * ks
    let timeDirect := 1806 / 10 ^ 13 * n * kp + 1206 / 10 ^ 8 * kp
    .ok (decide (timeSeparable < timeFourier), decide (timeFourier < timeDirect),
         !(decide (timeFourier < timeDirect)))
  else .error (errInvalidFlag ++ method)

/-- The strategy selection of `dip::Convolution` (`convolution.cpp` lines
618-704), at the level of which underlying implementation runs.  The kernel is
described by its sizes (expanded with trailing singleton dimensions to the
input dimensionality, as `ExpandDimensionality` does) and by `separatedFilter`,
the outcome of `dip::SeparateFilter` on it — `SeparateFilter` is not part of
the shown sources, so it enters as data: the empty list means the kernel admits
no rank-1 decomposition (the function returns an empty array on failure).
When the separable attempt fails and no other method may run, the call throws;
Fourier runs when the direct method was not selected or the kernel has more
than `7 ^ nDims` pixels; otherwise the direct path runs. -/
def ConvolutionDispatch (inSizes filterSizes0 : List ℕ) (method : String)
    (separatedFilter : List OneDimensionalFilter) : Except String ConvStrategy :=
  if inSizes.length < filterSizes0.length then .error errDimsDontMatch
  else
    let nd := inSizes.length
    let filterSizes := filterSizes0 ++ List.replicate (nd - filterSizes0.length) 1
    match convolutionFlags inSizes filterSizes method with
    | .error e => .error e
    | .ok flags =>
      if flags.1 ∧ separatedFilter ≠ [] then .ok .separable
      else if flags.1 ∧ ¬flags.2.1 ∧ ¬flags.2.2 then .error errNotSeparable
      else if flags.2.1 ∧ (¬flags.2.2 ∨ 7 ^ nd < filterSizes.prod) then .ok .fourier
      else .ok .direct

/-- Forcing the separable method sets only the trySeparable flag. -/
theorem convolutionFlags_separable (a b : List ℕ) :
    convolutionFlags a b "separable" = .ok (true, false, false) := by rfl

/-- C7.  Forcing the "separable" method either runs exactly the separable
strategy (when `SeparateFilter` produced a decomposition) or throws "Filter
kernel not separable." (when it did not); there is no fallback to any other
strategy. -/
theorem C7_forced_separable :
    ∀ (inSizes filterSizes0 : List ℕ) (sf : List OneDimensionalFilter),
      filterSizes0.length ≤ inSizes.length →
      (sf = [] →
        ConvolutionDispatch inSizes filterSizes0 "separable" sf = .error errNotSeparable) ∧
      (sf ≠ [] →
        ConvolutionDispatch inSizes filterSizes0 "separable" sf = .ok .separable) := by
  intro inSizes filterSizes0 sf hlen
  unfold ConvolutionDispatch
  rw [if_neg (show ¬ inSizes.length < filterSizes0.length from by omega)]
  dsimp only
  rw [convolutionFlags_separable]
  dsimp only
  constructor
  · intro hsf
    rw [if_neg (by simp [hsf])]
    rw [if_pos (by simp)]
  · intro hsf
    rw [if_pos (by simp [hsf])]

/-- Witness for C7: a 2-by-2 kernel on a 10-by-10 image, with and without a
successful separation. -/
theorem C7_forced_separable_witness :
    (ConvolutionDispatch [10, 10] [2, 2] "separable" [] = .error errNotSeparable) ∧
    (ConvolutionDispatch [10, 10] [2, 2] "separable"
        [{ filter := [1, 1] }, { filter := [1, 1] }] = .ok .separable) :=
  ⟨(C7_forced_separable [10, 10] [2, 2] [] (by decide)).1 rfl,
   (C7_forced_separable [10, 10] [2, 2] [{ filter := [1, 1] }, { filter := [1, 1] }]
      (by decide)).2 (by simp)⟩

/-- The integer coordinate box `[0, m)` of a kernel or image with sizes `m`,
as a finite set of coordinate tuples. -/
def zbox {d : ℕ} (m : Fin d → ℕ) : Finset (Fin d → ℤ) :=
  Fintype.piFinset fun i => Finset.Ico 0 (m i : ℤ)

/-- The origin pixel of an image of sizes `m` under the DIPlib convention: the
pixel at `floor(size / 2)` along every axis. -/
def centerIndex {d : ℕ} (m : Fin d → ℕ) : Fin d → ℤ := fun i => ((m i / 2 : ℕ) : ℤ)

/-- Modelled from the spec: the mathematically-defined discrete convolution of
a boundary-extended image with a kernel of sizes `m` whose origin is its center
pixel — true convolution, not correlation.  The boundary condition enters as
the extension function `ext`, which agrees with the image inside its domain and
synthesizes all out-of-bounds samples. -/
def directConv {d : ℕ} (m : Fin d → ℕ) (w : (Fin d → ℤ) → ℚ)
    (ext : (Fin d → ℤ) → ℚ) : (Fin d → ℤ) → ℚ := fun x =>
  ∑ j ∈ zbox m, w j * ext (fun i => x i + centerIndex m i - j i)

/-- The footprint of the mirrored kernel as a set of offsets: mirroring the
pixel table around the kernel origin turns the offset of pixel `j` into
`center - j` (`dip::Kernel::Mirror` followed by pixel-table generation), and
`IgnoreZeros` drops the zero-weight pixels. -/
def mirroredFootprint {d : ℕ} (m : Fin d → ℕ) (w : (Fin d → ℤ) → ℚ) :
    Finset (Fin d → ℤ) :=
  ((zbox m).filter (fun j => w j ≠ 0)).image (fun j i => centerIndex m i - j i)

/-- Modelled from the spec: `dip::Uniform`, the "unweighted neighborhood sum
(uniform filter)" over a kernel footprint given as offsets. -/
def Uniform {d : ℕ} (footprint : Finset (Fin d → ℤ))
    (ext : (Fin d → ℤ) → ℚ) : (Fin d → ℤ) → ℚ := fun x =>
  ∑ off ∈ footprint, ext (fun i => x i + off i)

/-- Modelled from the spec: `dip::GeneralConvolution` (`convolution.cpp` lines
588-616) as executed by `Framework::Full`, which is not part of the shown
sources: the kernel is mirrored; a binary kernel is routed to `Uniform` over
the mirrored footprint; otherwise zero-weight pixels are dropped
(`IgnoreZeros`) and every output sample is the weighted sum over the mirrored
pixel table. -/
def GeneralConvolution {d : ℕ} (m : Fin d → ℕ) (w : (Fin d → ℤ) → ℚ)
    (isBinary : Bool) (ext : (Fin d → ℤ) → ℚ) : (Fin d → ℤ) → ℚ :=
  if isBinary then Uniform (mirroredFootprint m w) ext
  else fun x =>
    ∑ j ∈ (zbox m).filter (fun j => w j ≠ 0),
      w j * ext (fun i => x i + centerIndex m i - j i)

/-- Strips all factors 2, 3 and 5 from a number, with explicit fuel. -/
def stripSmallFactors : ℕ → ℕ → ℕ
  | 0, k => k
  | fuel + 1, k =>
    if k % 2 = 0 ∧ 2 ≤ k then stripSmallFactors fuel (k / 2)
    else if k % 3 = 0 ∧ 3 ≤ k then stripSmallFactors fuel (k / 3)
    else if k % 5 = 0 ∧ 5 ≤ k then stripSmallFactors fuel (k / 5)
    else k

/-- A transform length is efficient when it has no prime factor above 5. -/
def isDFTFriendly (k : ℕ) : Bool := decide (k ≠ 0) && decide (stripSmallFactors k k = 1)

/-- Modelled from the spec: `dip::OptimalFourierTransformSize` — the smallest
size at least the requested one that is efficient for the FFT implementation,
which "is optimized for lengths that are a multiple of 2, 3 and 5" (dft.h).
The search is bounded because the next power of two always qualifies. -/
def optimalDFTSize (n : ℕ) : ℕ :=
  match (List.range (2 * n + 2)).find? (fun k => decide (n ≤ k) && isDFTFriendly k) with
  | some k => k
  | none => n


/-- The chosen transform size is at least the requested size. -/
theorem optimalDFTSize_ge (n : ℕ) : n ≤ optimalDFTSize n := by
  unfold optimalDFTSize
  cases hf : (List.range (2 * n + 2)).find? (fun k => decide (n ≤ k) && isDFTFriendly k) with
  | none => exact le_refl n
  | some k =>
    have := List.find?_some hf
    simp only [Bool.and_eq_true, decide_eq_true_eq] at this
    exact this.1

/-- Modelled from the spec: `dip::ExtendImageToSize` with `S::CENTER` — the
input of sizes `n` is placed so that its origin pixel `floor(n/2)` lands on the
origin pixel `floor(S/2)` of the padded image of sizes `S`, and every sample of
the padded image (border included) carries the boundary-extension value of the
corresponding input coordinate. -/
def extendImageToSize {d : ℕ} (S n : Fin d → ℕ) (ext : (Fin d → ℤ) → ℚ) :
    (Fin d → ℤ) → ℚ := fun y =>
  ext (fun i => y i - (centerIndex S i - centerIndex n i))

/-- Modelled from the spec: `dip::Image::Pad` with zero filling and
`CropLocation::CENTER`, applied to the kernel — the kernel of sizes `m` is
placed with its origin pixel on the origin pixel of the grid of sizes `S`, and
all other samples are zero. -/
def padKernel {d : ℕ} (S m : Fin d → ℕ) (w : (Fin d → ℤ) → ℚ) :
    (Fin d → ℤ) → ℚ := fun y =>
  if ∀ i, 0 ≤ y i - (centerIndex S i - centerIndex m i) ∧
      y i - (centerIndex S i - centerIndex m i) < (m i : ℤ)
  then w (fun i => y i - (centerIndex S i - centerIndex m i))
  else 0

/-- Modelled from the spec: the FFT round-trip of `ConvolveFT` — forward
transform of both operands, sample-wise product, inverse transform.  The
transform collaborator is opaque; DIPlib's Fourier transform places the origin
at the center pixel `floor(size/2)` in both domains, so the round-trip computes
the circular convolution on the grid of sizes `S` with the origin convention
that the result of convolving two images is anchored at the center pixel. -/
def cyclicConv {d : ℕ} (S : Fin d → ℕ) (K A : (Fin d → ℤ) → ℚ) :
    (Fin d → ℤ) → ℚ := fun z =>
  ∑ y ∈ zbox S, K y * A (fun i => (z i + centerIndex S i - y i) % (S i : ℤ))

/-- The spatial-in, spatial-filter, spatial-out path of `dip::ConvolveFT` with
a non-empty boundary condition (`convolution.cpp` lines 441-516): pad the input
to the FFT-friendly size `optimalDFTSize(n + m - 1)` with the boundary
condition, pad the kernel with zeros to the same size, run the FFT round-trip,
and crop the result back to the input sizes around the center. -/
def convolveFTPadded {d : ℕ} (n m : Fin d → ℕ) (w : (Fin d → ℤ) → ℚ)
    (ext : (Fin d → ℤ) → ℚ) : (Fin d → ℤ) → ℚ :=
  let S := fun i => optimalDFTSize (n i + m i - 1)
  fun x => cyclicConv S (padKernel S m w) (extendImageToSize S n ext)
    (fun i => x i + (centerIndex S i - centerIndex n i))

/-- The same path with an empty boundary condition: no padding happens, the
kernel is zero-padded to the input sizes, and the FFT round-trip computes the
circular convolution on the input grid itself (implicit periodic wraparound). -/
def convolveFTNoPad {d : ℕ} (n m : Fin d → ℕ) (w : (Fin d → ℤ) → ℚ)
    (img : (Fin d → ℤ) → ℚ) : (Fin d → ℤ) → ℚ :=
  cyclicConv n (padKernel n m w) img

/-- Membership in a coordinate box, unfolded per axis. -/
theorem mem_zbox {d : ℕ} {m : Fin d → ℕ} {y : Fin d → ℤ} :
    y ∈ zbox m ↔ ∀ i, 0 ≤ y i ∧ y i < (m i : ℤ) := by
  unfold zbox
  rw [Fintype.mem_piFinset]
  constructor
  · intro h i
    have := h i
    rw [Finset.mem_Ico] at this
    exact this
  · intro h i
    rw [Finset.mem_Ico]
    exact h i

/-- Evaluation of the FFT round-trip with a zero-padded centered kernel: the
sum over the whole grid collapses to a sum over the kernel box, and the
placement offsets cancel so that only the kernel center remains. -/
theorem cyclicConv_pad_eval {d : ℕ} (S m : Fin d → ℕ) (hms : ∀ i, m i ≤ S i)
    (w A : (Fin d → ℤ) → ℚ) (z : Fin d → ℤ) :
    cyclicConv S (padKernel S m w) A z
      = ∑ j ∈ zbox m, w j * A (fun i => (z i + centerIndex m i - j i) % (S i : ℤ)) := by
  unfold cyclicConv
  have hwin : (Fintype.piFinset fun i =>
      Finset.Ico (centerIndex S i - centerIndex m i)
        (centerIndex S i - centerIndex m i + (m i : ℤ))) ⊆ zbox S := by
    intro y hy
    rw [Fintype.mem_piFinset] at hy
    rw [mem_zbox]
    intro i
    have h1 := hy i
    rw [Finset.mem_Ico] at h1
    unfold centerIndex at h1
    have hms1 := hms i
    omega
  rw [← Finset.sum_subset hwin ?hvanish]
  case hvanish =>
    intro y hy hyn
    have hcond : ¬ (∀ i, 0 ≤ y i - (centerIndex S i - centerIndex m i) ∧
        y i - (centerIndex S i - centerIndex m i) < (m i : ℤ)) := by
      intro hall
      apply hyn
      rw [Fintype.mem_piFinset]
      intro i
      rw [Finset.mem_Ico]
      have := hall i
      omega
    unfold padKernel
    rw [if_neg hcond, zero_mul]
  apply Finset.sum_nbij'
    (fun y => fun i => y i - (centerIndex S i - centerIndex m i))
    (fun j => fun i => j i + (centerIndex S i - centerIndex m i))
  · intro y hy
    rw [Fintype.mem_piFinset] at hy
    rw [mem_zbox]
    intro i
    have h1 := hy i
    rw [Finset.mem_Ico] at h1
    omega
  · intro j hj
    rw [mem_zbox] at hj
    rw [Fintype.mem_piFinset]
    intro i
    have h1 := hj i
    rw [Finset.mem_Ico]
    omega
  · intro y hy
    funext i
    dsimp only
    omega
  · intro j hj
    funext i
    dsimp only
    omega
  · intro y hy
    rw [Fintype.mem_piFinset] at hy
    have hcond : (∀ i, 0 ≤ y i - (centerIndex S i - centerIndex m i) ∧
        y i - (centerIndex S i - centerIndex m i) < (m i : ℤ)) := by
      intro i
      have h1 := hy i
      rw [Finset.mem_Ico] at h1
      omega
    unfold padKernel
    rw [if_pos hcond]
    congr 2
    funext i
    dsimp only
    congr 1
    omega

/-- Dropping zero-weight kernel pixels from the pixel table does not change the
convolution sum, so the non-binary path of `GeneralConvolution` computes the
mathematically-defined discrete convolution. -/
theorem GeneralConvolution_eq_directConv {d : ℕ} (m : Fin d → ℕ)
    (w ext : (Fin d → ℤ) → ℚ) :
    GeneralConvolution m w false ext = directConv m w ext := by
  funext x
  unfold GeneralConvolution directConv
  rw [if_neg (by simp)]
  rw [Finset.sum_filter_of_ne]
  intro j hj hne
  intro hw0
  apply hne
  rw [hw0, zero_mul]

/-- C1, amended.  On every axis let `S = optimalDFTSize(n + m - 1)` be the
padded size.  Whenever on every axis either `S` is at least `n + m`, or the
kernel size is odd, or the input size is even, the Fourier path with an
explicit boundary condition, the direct path, and the mathematically-defined
discrete convolution agree exactly at every output coordinate, for every
kernel not larger than the input and every boundary extension.  The excluded
axis parity (odd input, even kernel, `S = n + m - 1` exactly) genuinely breaks
the equality: see the counterexample. -/
theorem C1_fourier_direct_amended :
    ∀ (d : ℕ) (n m : Fin d → ℕ) (w ext : (Fin d → ℤ) → ℚ),
      (∀ i, 0 < m i) → (∀ i, m i ≤ n i) →
      (∀ i, n i + m i ≤ optimalDFTSize (n i + m i - 1) ∨ m i % 2 = 1 ∨ n i % 2 = 0) →
      ∀ x ∈ zbox n,
        convolveFTPadded n m w ext x = GeneralConvolution m w false ext x ∧
        GeneralConvolution m w false ext x = directConv m w ext x := by
  intro d n m w ext hm hmn hparity x hx
  rw [GeneralConvolution_eq_directConv]
  refine ⟨?_, rfl⟩
  unfold convolveFTPadded
  have hms : ∀ i, m i ≤ optimalDFTSize (n i + m i - 1) := by
    intro i
    have h1 := optimalDFTSize_ge (n i + m i - 1)
    have h2 := hm i
    have h3 := hmn i
    omega
  rw [cyclicConv_pad_eval _ m hms]
  unfold directConv
  refine Finset.sum_congr rfl (fun j hj => ?_)
  rw [mem_zbox] at hx hj
  congr 1
  unfold extendImageToSize
  congr 1
  funext i
  simp only [centerIndex]
  have hxi := hx i
  have hji := hj i
  have hSi := optimalDFTSize_ge (n i + m i - 1)
  have hpar := hparity i
  have hmi := hm i
  have hmni := hmn i
  have h1 : 0 ≤ x i + (((optimalDFTSize (n i + m i - 1) / 2 : ℕ) : ℤ)
      - ((n i / 2 : ℕ) : ℤ)) + ((m i / 2 : ℕ) : ℤ) - j i := by
    omega
  have h2 : x i + (((optimalDFTSize (n i + m i - 1) / 2 : ℕ) : ℤ)
      - ((n i / 2 : ℕ) : ℤ)) + ((m i / 2 : ℕ) : ℤ) - j i
      < ((optimalDFTSize (n i + m i - 1) : ℕ) : ℤ) := by
    omega
  rw [Int.emod_eq_of_lt h1 h2]
  omega

/-- Input grid size for the C1 evaluation: 3 samples. -/
def c1n : Fin 1 → ℕ := fun _ => 3

/-- Even kernel size for the C1 counterexample: 2 taps. -/
def c1m : Fin 1 → ℕ := fun _ => 2

/-- Kernel weights for the C1 evaluation: the indicator of tap 0. -/
def c1w : (Fin 1 → ℤ) → ℚ := fun j => if j 0 = 0 then 1 else 0

/-- Input values for the C1 evaluation: periodic indicator of multiples of 3. -/
def c1ext : (Fin 1 → ℤ) → ℚ := fun y => if y 0 % 3 = 0 then 1 else 0

/-- Evaluation point for the C1 counterexample: the last sample. -/
def c1x : Fin 1 → ℤ := fun _ => 2

/-- The single nonzero kernel tap of the C1 counterexample. -/
def c1j : Fin 1 → ℤ := fun _ => 0

/-- C1, counterexample to the claim as stated: a 3-sample input with a 2-tap
kernel (kernel not larger than the input) under the periodic boundary
condition.  The FFT-friendly padded size is exactly n + m - 1 = 4, the input
size is odd and the kernel size even, and the centered placement then leaves
the padded image one sample short on the right: the Fourier path reads a
boundary sample where the direct convolution reads an interior one. -/
theorem C1_fourier_direct_counterexample :
    (∀ i, 0 < c1m i) ∧ (∀ i, c1m i ≤ c1n i) ∧ c1x ∈ zbox c1n ∧
    convolveFTPadded c1n c1m c1w c1ext c1x ≠ GeneralConvolution c1m c1w false c1ext c1x := by
  refine ⟨by decide, by decide, by decide, ?_⟩
  have hdirect : GeneralConvolution c1m c1w false c1ext c1x = 1 := by
    rw [GeneralConvolution_eq_directConv]
    unfold directConv
    rw [Finset.sum_eq_single_of_mem c1j (by decide)]
    · norm_num [c1w, c1ext, c1j, c1x, c1m, centerIndex]
    · intro b hb hne
      have hb0 : b 0 ≠ 0 := by
        intro h0
        apply hne
        funext i
        have hi : i = 0 := Subsingleton.elim i 0
        rw [hi, h0]
        rfl
      simp [c1w, hb0]
  have hft : convolveFTPadded c1n c1m c1w c1ext c1x = 0 := by
    unfold convolveFTPadded
    have hms : ∀ i : Fin 1, c1m i ≤ optimalDFTSize (c1n i + c1m i - 1) := by decide
    rw [cyclicConv_pad_eval _ c1m hms]
    rw [Finset.sum_eq_single_of_mem c1j (by decide)]
    · norm_num [c1w, c1j, c1x, c1m, c1n, centerIndex, extendImageToSize, c1ext,
        show optimalDFTSize 4 = 4 from by decide]
    · intro b hb hne
      have hb0 : b 0 ≠ 0 := by
        intro h0
        apply hne
        funext i
        have hi : i = 0 := Subsingleton.elim i 0
        rw [hi, h0]
        rfl
      simp [c1w, hb0]
  rw [hdirect, hft]
  norm_num

/-- Witness for C1 at a 3-sample input with a 3-tap kernel (odd kernel size,
so the parity side condition holds). -/
theorem C1_fourier_direct_witness :
    convolveFTPadded c1n (fun _ => 3) c1w c1ext c1x
        = GeneralConvolution (fun _ => 3) c1w false c1ext c1x ∧
      GeneralConvolution (fun _ => 3) c1w false c1ext c1x
        = directConv (fun _ => 3) c1w c1ext c1x :=
  C1_fourier_direct_amended 1 c1n (fun _ => 3) c1w c1ext
    (by decide) (by decide) (by decide) c1x (by decide)

/-- C6.  For a binary-valued kernel, `GeneralConvolution` routes to the
`Uniform` filter over the mirrored kernel footprint (first part), and the
result coincides with the weighted general convolution of the same kernel —
the unweighted neighborhood sum over the mirrored footprint is exactly the
mathematically-defined convolution with 0/1 weights (second part). -/
theorem C6_binary_kernel_uniform :
    ∀ (d : ℕ) (m : Fin d → ℕ) (w ext : (Fin d → ℤ) → ℚ),
      (∀ j ∈ zbox m, w j = 0 ∨ w j = 1) →
      GeneralConvolution m w true ext = Uniform (mirroredFootprint m w) ext ∧
      ∀ x, GeneralConvolution m w true ext x = GeneralConvolution m w false ext x := by
  intro d m w ext hbin
  have hroute : GeneralConvolution m w true ext = Uniform (mirroredFootprint m w) ext := by
    unfold GeneralConvolution
    rw [if_pos rfl]
  refine ⟨hroute, ?_⟩
  intro x
  rw [hroute]
  unfold GeneralConvolution
  rw [if_neg (by simp)]
  unfold Uniform mirroredFootprint
  rw [Finset.sum_image ?inj]
  case inj =>
    intro a ha b hb hab
    funext i
    have h1 := congrFun hab i
    omega
  apply Finset.sum_congr rfl
  intro j hj
  rw [Finset.mem_filter] at hj
  rcases hbin j hj.1 with h1 | h1
  · exact absurd h1 hj.2
  · rw [h1, one_mul]
    congr 1
    funext i
    dsimp only
    ring

/-- Error message standing for `E::SIZES_DONT_MATCH`. -/
def errSizesDontMatch : String := "Sizes don't match"

/-- The observable outcome of a `ConvolveFT` call at the size level: whether
the input was padded, and the sizes of the output image. -/
structure FTCallTrace where
  inPadding : Bool
  outSizes : List ℕ
deriving DecidableEq

/-- The representation, padding and size flow of `dip::ConvolveFT`
(`convolution.cpp` lines 415-516): the filter is expanded to the input
dimensionality and must not be larger than the input along any axis; the input
is padded to `OptimalFourierTransformSize(n + m - 1)` exactly when input,
filter and output are all in the spatial representation and an explicit
boundary condition was given; a spatial output is cropped back to the input
sizes when padding happened, and otherwise keeps the transform grid, which is
the input grid. -/
def ConvolveFTSizes (inSizes filterSizes : List ℕ)
    (inSpatial filterSpatial outSpatial : Bool) (boundaryCondition : List String) :
    Except String FTCallTrace :=
  if inSizes.length < filterSizes.length then .error errSizesDontMatch
  else
    let fSizes := filterSizes ++ List.replicate (inSizes.length - filterSizes.length) 1
    if ¬ (List.zipWith (fun a b => decide (a ≤ b)) fSizes inSizes).all id then
      .error errSizesDontMatch
    else
      let inPadding := inSpatial && filterSpatial && outSpatial && !boundaryCondition.isEmpty
      let inFTSizes := if inPadding then
          List.zipWith (fun a b => optimalDFTSize (a + b - 1)) inSizes fSizes
        else inSizes
      let outSizes := if outSpatial then (if inPadding then inSizes else inFTSizes)
        else inFTSizes
      .ok { inPadding := inPadding, outSizes := outSizes }

/-- Modelled from the spec: the periodic boundary condition as an extension
function — every coordinate is reduced modulo the image size. -/
def periodicExtend {d : ℕ} (n : Fin d → ℕ) (img : (Fin d → ℤ) → ℚ) :
    (Fin d → ℤ) → ℚ := fun y => img (fun i => y i % (n i : ℤ))

/-- Without padding, the FFT round-trip on the input grid computes the discrete
convolution under the implicit periodic boundary condition. -/
theorem convolveFTNoPad_eq_periodic {d : ℕ} (n m : Fin d → ℕ)
    (hmn : ∀ i, m i ≤ n i) (w img : (Fin d → ℤ) → ℚ) (x : Fin d → ℤ) :
    convolveFTNoPad n m w img x = directConv m w (periodicExtend n img) x := by
  unfold convolveFTNoPad
  rw [cyclicConv_pad_eval n m hmn]
  unfold directConv periodicExtend
  apply Finset.sum_congr rfl
  intro j hj
  congr 1

/-- One-sample-per-period input grid size for the C3 evaluation, 4 samples. -/
def c3n : Fin 1 → ℕ := fun _ => 4

/-- Two-tap kernel size for the C3 evaluation. -/
def c3m : Fin 1 → ℕ := fun _ => 2

/-- Kernel weights for the C3 evaluation: the indicator of tap 0. -/
def c3w : (Fin 1 → ℤ) → ℚ := fun j => if j 0 = 0 then 1 else 0

/-- Input values for the C3 evaluation: the indicator of multiples of 4. -/
def c3ext : (Fin 1 → ℤ) → ℚ := fun y => if y 0 % 4 = 0 then 1 else 0

/-- Evaluation point for the C3 witness. -/
def c3x : Fin 1 → ℤ := fun _ => 1

/-- C3.  The Fourier convolution path pads the input exactly when the input,
filter and output are all in the spatial representation and a non-empty
boundary condition is given, and the output sizes always equal the input
sizes (first part); without padding, the computed values are the discrete
convolution of the input extended by implicit periodic wraparound
(second part). -/
theorem C3_fourier_padding :
    (∀ (inSizes filterSizes : List ℕ) (inSp fSp outSp : Bool) (bc : List String)
        (tr : FTCallTrace),
        ConvolveFTSizes inSizes filterSizes inSp fSp outSp bc = .ok tr →
        tr.inPadding = (inSp && fSp && outSp && !bc.isEmpty) ∧ tr.outSizes = inSizes) ∧
    (∀ (d : ℕ) (n m : Fin d → ℕ) (w img : (Fin d → ℤ) → ℚ),
        (∀ i, m i ≤ n i) →
        ∀ x, convolveFTNoPad n m w img x = directConv m w (periodicExtend n img) x) := by
  constructor
  · intro inSizes filterSizes inSp fSp outSp bc tr h
    unfold ConvolveFTSizes at h
    by_cases h1 : inSizes.length < filterSizes.length
    · rw [if_pos h1] at h
      exact absurd h (by simp)
    · rw [if_neg h1] at h
      dsimp only at h
      by_cases h2 : ¬ (List.zipWith (fun a b => decide (a ≤ b))
          (filterSizes ++ List.replicate (inSizes.length - filterSizes.length) 1)
          inSizes).all id
      · rw [if_pos h2] at h
        exact absurd h (by simp)
      · rw [if_neg h2] at h
        cases h
        refine ⟨rfl, ?_⟩
        cases inSp <;> cases fSp <;> cases outSp <;> cases hbc : bc.isEmpty <;>
          simp [hbc]
  · intro d n m w img hmn x
    exact convolveFTNoPad_eq_periodic n m hmn w img x

/-- Witness for C3: a 14x7 input with a 4x3 filter and an explicit boundary
condition does get padded and keeps its sizes, and a 4-sample periodic input
with a 2-tap kernel evaluates identically on both sides without padding. -/
theorem C3_fourier_padding_witness :
    ((FTCallTrace.mk true [14, 7]).inPadding
        = (true && true && true && !(["asymmetric mirror"] : List String).isEmpty) ∧
      (FTCallTrace.mk true [14, 7]).outSizes = [14, 7]) ∧
    convolveFTNoPad c3n c3m c3w c3ext c3x
      = directConv c3m c3w (periodicExtend c3n c3ext) c3x :=
  ⟨C3_fourier_padding.1 [14, 7] [4, 3] true true true ["asymmetric mirror"]
      (FTCallTrace.mk true [14, 7]) (by rfl),
    C3_fourier_padding.2 1 c3n c3m c3w c3ext (by decide) c3x⟩

/-- Kernel size for the C6 evaluation: two taps. -/
def c6m : Fin 1 → ℕ := fun _ => 2

/-- Binary-valued kernel weights for the C6 evaluation. -/
def c6w : (Fin 1 → ℤ) → ℚ := fun j => if j 0 = 0 then 1 else 0

/-- Input values for the C6 evaluation: the coordinate itself. -/
def c6ext : (Fin 1 → ℤ) → ℚ := fun y => (y 0 : ℚ)

/-- Evaluation point for the C6 witness. -/
def c6x : Fin 1 → ℤ := fun _ => 3

/-- Witness for C6 at a binary two-tap kernel: the routed uniform filter is the
same function as the general convolution, also at the sample point 3. -/
theorem C6_binary_kernel_uniform_witness :
    GeneralConvolution c6m c6w true c6ext = Uniform (mirroredFootprint c6m c6w) c6ext ∧
    GeneralConvolution c6m c6w true c6ext c6x = GeneralConvolution c6m c6w false c6ext c6x :=
  ⟨(C6_binary_kernel_uniform 1 c6m c6w c6ext (by decide)).1,
    (C6_binary_kernel_uniform 1 c6m c6w c6ext (by decide)).2 c6x⟩

/-- Modelled from the spec: an image as used by the scan framework — a size
array, a stride array, and a linear sample buffer addressed by offset. -/
structure StridedImage where
  sizes : List ℕ
  strides : List ℤ
  buffer : ℤ → ℚ

/-- Reading the sample of a strided image at a coordinate vector: the buffer
value at the inner product of strides and coordinates. -/
def sampleAt (img : StridedImage) (x : List ℤ) : ℚ :=
  img.buffer (List.zipWith (fun s c => s * c) img.strides x).sum

/-- Modelled from the spec: `dip::Image::ExpandSingletonDimension` — a
dimension of size 1 is given the requested size and stride 0, so all
coordinates along it alias the same samples; any other dimension is refused. -/
def ExpandSingletonDimension (img : StridedImage) (d sz : ℕ) :
    Except String StridedImage :=
  if d < img.sizes.length ∧ img.sizes.getD d 0 = 1 then
    .ok { sizes := img.sizes.set d sz, strides := img.strides.set d 0,
          buffer := img.buffer }
  else .error errArrayParam

/-- Modelled from the spec: `Framework::ScanDyadic` computing `img + c` with a
scalar second operand — the output is forged with the input's sizes and keeps
the input's stride pattern (singleton expansion preserved), and every output
sample is the corresponding input sample plus the scalar. -/
def AddScalarScan (img : StridedImage) (c : ℚ) : StridedImage :=
  { sizes := img.sizes, strides := img.strides,
    buffer := fun k => img.buffer k + c }

/-- The doctest's base image: 256x1, normal strides, filled with zeros in its
256-sample buffer window (arbitrary values outside the window). -/
def c8Img : StridedImage :=
  { sizes := [256, 1], strides := [1, 256],
    buffer := fun k => if 0 ≤ k ∧ k < 256 then 0 else 99 }

/-- The doctest's base image after singleton expansion of dimension 1 to 256. -/
def c8Expanded : StridedImage :=
  { sizes := [256, 256], strides := [1, 0], buffer := c8Img.buffer }

/-- C8.  Singleton-expanding dimension 1 of the 256x1 zero image to 256 gives
sizes 256x256 with stride 0 along the expanded dimension; adding the scalar 1
through the scan model keeps those sizes and the zero stride, and every sample
at coordinates (i, j) with i in range — j unrestricted, since the zero stride
never leaves the valid buffer window — equals 1. -/
theorem C8_singleton_expansion :
    ∀ expanded : StridedImage,
      ExpandSingletonDimension c8Img 1 256 = .ok expanded →
      expanded.sizes = [256, 256] ∧
      expanded.strides = [1, 0] ∧
      (AddScalarScan expanded 1).sizes = [256, 256] ∧
      (AddScalarScan expanded 1).strides = [1, 0] ∧
      ∀ i j : ℤ, 0 ≤ i → i < 256 →
        sampleAt (AddScalarScan expanded 1) [i, j] = 1 := by
  intro expanded h
  have hexp : expanded = c8Expanded := by
    rw [show ExpandSingletonDimension c8Img 1 256 = .ok c8Expanded from rfl] at h
    exact (Except.ok.injEq _ _).mp h.symm
  subst hexp
  refine ⟨rfl, rfl, rfl, rfl, ?_⟩
  intro i j h0 h256
  unfold sampleAt AddScalarScan c8Expanded c8Img
  dsimp only
  rw [show List.zipWith (fun s c => s * c) [(1 : ℤ), 0] [i, j] = [i, 0] from by
    dsimp only [List.zipWith]
    rw [one_mul, zero_mul]]
  rw [show ([i, (0 : ℤ)]).sum = i from by simp]
  rw [if_pos ⟨h0, h256⟩]
  norm_num

/-- Witness for C8: the expanded image and the scan output have the sizes and
strides of the doctest, and the sample at (50, 200) is 1. -/
theorem C8_singleton_expansion_witness :
    c8Expanded.sizes = [256, 256] ∧
    c8Expanded.strides = [1, 0] ∧
    (AddScalarScan c8Expanded 1).sizes = [256, 256] ∧
    (AddScalarScan c8Expanded 1).strides = [1, 0] ∧
    sampleAt (AddScalarScan c8Expanded 1) [50, 200] = 1 :=
  ⟨(C8_singleton_expansion c8Expanded rfl).1,
    (C8_singleton_expansion c8Expanded rfl).2.1,
    (C8_singleton_expansion c8Expanded rfl).2.2.1,
    (C8_singleton_expansion c8Expanded rfl).2.2.2.1,
    (C8_singleton_expansion c8Expanded rfl).2.2.2.2 50 200 (by decide) (by decide)⟩

end DipSpec
